import Mathlib

/-!
Verification of the sfen codec (a bidirectional textual codec for shogi
positions and move sequences).

The development shallowly embeds the two source modules:
 - the data model and the two entry points from `lib.rs`
   (`Side`, `Square`, `PieceType`, `BoardCell`, `Board`, `Hand`, `Position`,
   `Move`);
 - the decoder from `decode.rs` and the encoder from `encode.rs`.

Strings are modelled as `List Char`.  Machine integers (`u8`, `i32`, `usize`)
are modelled as `Nat`/`Int`, with the width constraints stated explicitly
where the code relies on them.  Fallible code returns `Res`, whose `err`
constructor models the library's recoverable decode error and whose `fatal`
constructor models a Rust runtime abort (an out-of-bounds slice access or an
arithmetic overflow in a debug build).
-/

namespace Sfen

/-- Outcome of a fallible computation: success, a recoverable decode error
carrying its message, or a runtime abort (Rust slice-bounds / overflow
failure), which is not a decode error. -/
inductive Res (α : Type) where
  | ok (a : α)
  | err (msg : List Char)
  | fatal
  deriving DecidableEq

def Res.isOk {α : Type} : Res α → Bool
  | .ok _ => true
  | _ => false

def Res.isErr {α : Type} : Res α → Bool
  | .err _ => true
  | _ => false

/-! ## Data model (`lib.rs`) -/

/-- The two players.  `Sente` is the first player (letter case upper in the
textual form), `Gote` the second. -/
inductive Side where
  | Sente
  | Gote
  deriving DecidableEq, Fintype

/-- A board coordinate.  The Rust code stores the single index `9*y + x`
(a `u8`); a square constructed through `Square.new` with `x, y < 9` has
`idx < 81`. -/
structure Square where
  idx : Nat
  deriving DecidableEq

/-- The lookup table `SQ_TO_X` maps index `i` to `i % 9`. -/
def Square.x (sq : Square) : Nat := sq.idx % 9

/-- The lookup table `SQ_TO_Y` maps index `i` to `i / 9`. -/
def Square.y (sq : Square) : Nat := sq.idx / 9

/-- `Square::new(x, y)` builds the square with index `9*y + x`.  The Rust
function aborts for `x ≥ 9` or `y ≥ 9`; every caller in the library
(`chars_to_sq`) validates the ranges first, so the embedding keeps the happy
path only and the range appears as a hypothesis where needed. -/
def Square.new (x y : Nat) : Square := ⟨9 * y + x⟩

/-- The fourteen piece kinds. -/
inductive PieceType where
  | Pawn
  | Lance
  | Knight
  | Silver
  | Bishop
  | Rook
  | Gold
  | King
  | ProPawn
  | ProLance
  | ProKnight
  | ProSilver
  | Horse
  | Dragon
  deriving DecidableEq, Fintype

/-- `PieceType::is_hand`: the seven kinds a hand may hold. -/
def PieceType.is_hand : PieceType → Bool
  | .Pawn | .Lance | .Knight | .Silver | .Bishop | .Rook | .Gold => true
  | _ => false

/-- `PieceType::to_promoted`: the promoted form, for the six promotable
kinds. -/
def PieceType.to_promoted : PieceType → Option PieceType
  | .Pawn => some .ProPawn
  | .Lance => some .ProLance
  | .Knight => some .ProKnight
  | .Silver => some .ProSilver
  | .Bishop => some .Horse
  | .Rook => some .Dragon
  | _ => none

/-- One cell of the board. -/
inductive BoardCell where
  | Empty
  | Piece (side : Side) (pt : PieceType)
  deriving DecidableEq

/-- The board is a fixed array of 81 cells (`[BoardCell; 81]` in Rust),
row-major; modelled as a list whose length-81 invariant is carried as a
hypothesis where it matters. -/
abbrev Board := List BoardCell

/-- A hand: one count per hand-eligible kind (`[u8; 7]` in Rust, indexed by
the discriminant `Pawn = 0 .. Gold = 6`); modelled with one named field per
kind, each count a `Nat` whose `≤ 255` invariant is a hypothesis where it
matters. -/
structure Hand where
  pawn : Nat
  lance : Nat
  knight : Nat
  silver : Nat
  bishop : Nat
  rook : Nat
  gold : Nat
  deriving DecidableEq

/-- `Hand::count`.  The Rust code indexes `counts[pt as usize]` and is only
ever called with the seven hand kinds; the remaining kinds are mapped to 0
here. -/
def Hand.count (h : Hand) : PieceType → Nat
  | .Pawn => h.pawn
  | .Lance => h.lance
  | .Knight => h.knight
  | .Silver => h.silver
  | .Bishop => h.bishop
  | .Rook => h.rook
  | .Gold => h.gold
  | _ => 0

/-- Add `n` to the count of `pt` (the `counts[side][pt] += cur` update of
`decode_hands`).  Only ever used with hand kinds; other kinds are a no-op. -/
def Hand.add (h : Hand) (pt : PieceType) (n : Nat) : Hand :=
  match pt with
  | .Pawn => { h with pawn := h.pawn + n }
  | .Lance => { h with lance := h.lance + n }
  | .Knight => { h with knight := h.knight + n }
  | .Silver => { h with silver := h.silver + n }
  | .Bishop => { h with bishop := h.bishop + n }
  | .Rook => { h with rook := h.rook + n }
  | .Gold => { h with gold := h.gold + n }
  | _ => h

/-- `Hand::empty`. -/
def Hand.emptyHand : Hand := ⟨0, 0, 0, 0, 0, 0, 0⟩

/-- `Hand::is_empty`. -/
def Hand.is_empty (h : Hand) : Bool :=
  h.pawn == 0 && h.lance == 0 && h.knight == 0 && h.silver == 0 &&
    h.bishop == 0 && h.rook == 0 && h.gold == 0

/-- A position: side to move, board, both hands (`hands: [Hand; 2]` indexed
by side in Rust), and the ply counter (an `i32`, modelled as an `Int` whose
32-bit range is a hypothesis where it matters). -/
structure Position where
  side : Side
  board : Board
  hand_sente : Hand
  hand_gote : Hand
  ply : Int
  deriving DecidableEq

/-- `Position::hand`. -/
def Position.hand (pos : Position) : Side → Hand
  | .Sente => pos.hand_sente
  | .Gote => pos.hand_gote

/-- A move: either a board move (`MoveNondrop`) or a drop from the hand
(`MoveDrop`).  The two Rust structs are inlined into the constructors. -/
inductive Move where
  | nondrop (src : Square) (dst : Square) (is_promotion : Bool)
  | drop (pt : PieceType) (dst : Square)
  deriving DecidableEq

/-! ## Encoder (`encode.rs`) -/

/-- `encode_pt`: the letter of a piece kind, with a plus prefix for the six
promoted forms. -/
def encode_pt : PieceType → List Char
  | .Pawn => ['P']
  | .Lance => ['L']
  | .Knight => ['N']
  | .Silver => ['S']
  | .Bishop => ['B']
  | .Rook => ['R']
  | .Gold => ['G']
  | .King => ['K']
  | .ProPawn => ['+', 'P']
  | .ProLance => ['+', 'L']
  | .ProKnight => ['+', 'N']
  | .ProSilver => ['+', 'S']
  | .Horse => ['+', 'B']
  | .Dragon => ['+', 'R']

/-- `encode_piece`: Sente keeps the uppercase letters, Gote lowercases them
(`to_ascii_lowercase`, which leaves the plus sign unchanged). -/
def encode_piece (side : Side) (pt : PieceType) : List Char :=
  match side with
  | .Sente => encode_pt pt
  | .Gote => (encode_pt pt).map Char.toLower

/-- The digit character for `n` (`char::from_digit(n, 10)`); used with
`n ≤ 9`. -/
def digit_char (n : Nat) : Char := Char.ofNat (48 + n)

/-- `State::flush_emptys` of `encode_board_row`: emit the run length of
pending empty cells as one decimal digit, if nonzero. -/
def flush_emptys (n : Nat) : List Char :=
  if n = 0 then [] else [digit_char n]

/-- The scan loop of `encode_board_row`, with the mutable state
`(s_row, n_empty)` turned into an accumulator: empties extend the pending
run, a piece flushes the run and emits its letters.  The Rust state also
flushes when the cell index reaches 9; a row chunk has exactly 9 cells, so
that flush is the end-of-list flush here. -/
def enc_row_go : List BoardCell → Nat → List Char
  | [], n => flush_emptys n
  | .Empty :: rest, n => enc_row_go rest (n + 1)
  | .Piece side pt :: rest, n =>
      flush_emptys n ++ encode_piece side pt ++ enc_row_go rest 0

/-- `encode_board_row`. -/
def encode_board_row (row : List BoardCell) : List Char := enc_row_go row 0

/-- `join` over a separator, as Rust's `slice::join`. -/
def join_sep (sep : List Char) : List (List Char) → List Char
  | [] => []
  | [t] => t
  | t :: t2 :: ts => t ++ sep ++ join_sep sep (t2 :: ts)

/-- `chunks(9)` on the cell array, with an explicit fuel (any fuel at least
the number of chunks gives the same result; `encode_board` passes the list
length). -/
def chunks9 : Nat → List BoardCell → List (List BoardCell)
  | 0, _ => []
  | _, [] => []
  | fuel + 1, l => l.take 9 :: chunks9 fuel (l.drop 9)

/-- `encode_board`: encode the nine 9-cell chunks and join them with a
slash. -/
def encode_board (b : Board) : List Char :=
  join_sep ['/'] ((chunks9 b.length b).map encode_board_row)

/-- `encode_side`. -/
def encode_side : Side → List Char
  | .Sente => ['b']
  | .Gote => ['w']

/-- Decimal digits of a natural number (Rust's `to_string`), with explicit
fuel; `nat_to_chars` passes enough. -/
def nat_to_chars_go : Nat → Nat → List Char
  | 0, _ => []
  | fuel + 1, n =>
      if n < 10 then [digit_char n]
      else nat_to_chars_go fuel (n / 10) ++ [digit_char (n % 10)]

/-- Decimal representation of a natural number. -/
def nat_to_chars (n : Nat) : List Char := nat_to_chars_go (n + 1) n

/-- Decimal representation of an integer (Rust's `i32::to_string`). -/
def int_to_chars (i : Int) : List Char :=
  if i < 0 then '-' :: nat_to_chars i.natAbs else nat_to_chars i.toNat

/-- `encode_ply`. -/
def encode_ply (ply : Int) : List Char := int_to_chars ply

/-- The iteration order of `encode_hands` over piece kinds (its local `PTS`
array). -/
def ENC_PTS : List PieceType :=
  [.Rook, .Bishop, .Gold, .Silver, .Knight, .Lance, .Pawn]

/-- One loop body of `encode_hands`: for a `(side, hand, kind)` combination,
nothing for count 0, otherwise the decimal count when it is at least 2
followed by the piece letter. -/
def hand_group (side : Side) (h : Hand) (pt : PieceType) : List Char :=
  let n := h.count pt
  if n = 0 then []
  else (if 2 ≤ n then nat_to_chars n else []) ++ encode_piece side pt

/-- `encode_hands`: a lone dash when both hands are empty, otherwise the
groups in loop order — sides outer (Sente then Gote), kinds inner in
`ENC_PTS` order. -/
def encode_hands (hand_sente hand_gote : Hand) : List Char :=
  if hand_sente.is_empty && hand_gote.is_empty then ['-']
  else
    ([(Side.Sente, hand_sente), (Side.Gote, hand_gote)].map (fun sh =>
      (ENC_PTS.map (hand_group sh.1 sh.2)).flatten)).flatten

/-- The two characters of a square (`push_sq`): file digit `x + '1'`, rank
letter `y + 'a'`. -/
def sq_chars (sq : Square) : List Char :=
  [Char.ofNat (49 + sq.x), Char.ofNat (97 + sq.y)]

/-- `encode_move`. -/
def encode_move : Move → List Char
  | .nondrop src dst promo =>
      sq_chars src ++ sq_chars dst ++ (if promo then ['+'] else [])
  | .drop pt dst => encode_pt pt ++ ['*'] ++ sq_chars dst

/-- `encode_moves`: the word `moves` followed by the move tokens, space
separated. -/
def encode_moves (mvs : List Move) : List Char :=
  join_sep [' '] (("moves".toList) :: mvs.map encode_move)

/-- `encode_pos`: the five space-separated tokens of a bare position. -/
def encode_pos (pos : Position) : List Char :=
  join_sep [' ']
    [("sfen".toList), encode_board pos.board, encode_side pos.side,
      encode_hands pos.hand_sente pos.hand_gote, encode_ply pos.ply]

/-- `encode`: the position, then — only when the move list is non-empty — a
space and the move section. -/
def encode (pos : Position) (mvs : List Move) : List Char :=
  if mvs = [] then encode_pos pos
  else encode_pos pos ++ [' '] ++ encode_moves mvs

/-! ## Decoder (`decode.rs`) -/

/-- ASCII whitespace, as recognised by `split_ascii_whitespace`. -/
def is_ws (c : Char) : Bool :=
  c == ' ' || c == '\t' || c == '\n' || c == '\x0c' || c == '\r'

/-- Worker for `split_ws`: `cur` holds the current token reversed; empty
tokens are discarded. -/
def split_ws_aux : List Char → List Char → List (List Char)
  | [], cur => if cur.isEmpty then [] else [cur.reverse]
  | c :: cs, cur =>
      if is_ws c then
        if cur.isEmpty then split_ws_aux cs []
        else cur.reverse :: split_ws_aux cs []
      else split_ws_aux cs (c :: cur)

/-- `split_ascii_whitespace`: split into the maximal whitespace-free
non-empty tokens. -/
def split_ws (cs : List Char) : List (List Char) := split_ws_aux cs []

/-- `str::split` on a single separator character: empty segments are kept,
and the empty string yields one empty segment. -/
def split_on_char (sep : Char) : List Char → List (List Char)
  | [] => [[]]
  | c :: cs =>
      if c == sep then [] :: split_on_char sep cs
      else
        match split_on_char sep cs with
        | [] => [[c]]
        | t :: ts => (c :: t) :: ts

/-- `char_to_pt`: the uppercase letter table. -/
def char_to_pt (c : Char) : Option PieceType :=
  match c with
  | 'P' => some .Pawn
  | 'L' => some .Lance
  | 'N' => some .Knight
  | 'S' => some .Silver
  | 'B' => some .Bishop
  | 'R' => some .Rook
  | 'G' => some .Gold
  | 'K' => some .King
  | _ => none

/-- `char_to_side_pt`: look the character up case-insensitively; an uppercase
letter belongs to Sente, a lowercase one to Gote.  (The Rust function has an
unreachable abort for a character that is neither, which cannot fire because
the table only matches letters.) -/
def char_to_side_pt (c : Char) : Option (Side × PieceType) :=
  match char_to_pt c.toUpper with
  | none => none
  | some pt => some (if c.isUpper then Side.Sente else Side.Gote, pt)

/-- The row scanner state of `decode_board_row`: the 9-cell row being filled,
the number of cells filled, and the pending-promotion flag. -/
structure RowState where
  row : List BoardCell
  len : Nat
  promo : Bool
  deriving DecidableEq

def RowState.init : RowState := ⟨List.replicate 9 .Empty, 0, false⟩

/-- `State::eat` of `decode_board_row`, one character.  Check order follows
the Rust code: for a plus, the room check then the no-pending check; for a
digit, the no-pending check then the room check; for anything else, the
letter-table lookup, the room check, then promotion resolution. -/
def row_eat (st : RowState) (c : Char) : Res RowState :=
  if c == '+' then
    if 9 < st.len + 1 then .err ("board row: overflow".toList)
    else if st.promo then .err ("board row: invalid plus".toList)
    else .ok { st with promo := true }
  else if '1' ≤ c ∧ c ≤ '9' then
    if st.promo then .err ("board row: invalid plus".toList)
    else
      let n := c.toNat - 48
      if 9 < st.len + n then .err ("board row: overflow".toList)
      else .ok { st with len := st.len + n }
  else
    match char_to_side_pt c with
    | none => .err ("board row: invalid char: ".toList ++ [c])
    | some (side, pt) =>
      if 9 < st.len + 1 then .err ("board row: overflow".toList)
      else if st.promo then
        match pt.to_promoted with
        | none => .err ("board row: not promotable piece: ".toList ++ [c])
        | some ppt =>
            .ok ⟨st.row.set st.len (.Piece side ppt), st.len + 1, false⟩
      else .ok ⟨st.row.set st.len (.Piece side pt), st.len + 1, false⟩

/-- The character loop of `decode_board_row`. -/
def row_eats (st : RowState) : List Char → Res RowState
  | [] => .ok st
  | c :: cs =>
      match row_eat st c with
      | .ok st2 => row_eats st2 cs
      | .err e => .err e
      | .fatal => .fatal

/-- `decode_board_row`.  Note that the Rust function returns the row as soon
as the loop ends, without inspecting the pending-promotion flag. -/
def decode_board_row (s_row : List Char) : Res (List BoardCell) :=
  match row_eats RowState.init s_row with
  | .ok st => .ok st.row
  | .err e => .err e
  | .fatal => .fatal

/-- The row loop of `decode_board`: decode each segment, then copy it into
`cells[9*y .. 9*y+9]`.  For `y ≥ 9` the Rust slice `cells[81..]` is out of
bounds and the copy aborts; modelled by `fatal`. -/
def board_rows_go : List (List Char) → Nat → List BoardCell → Res Board
  | [], _, cells => .ok cells
  | r :: rs, y, cells =>
      match decode_board_row r with
      | .err e => .err e
      | .fatal => .fatal
      | .ok row =>
          if 81 < 9 * y + 9 then .fatal
          else
            board_rows_go rs (y + 1)
              (cells.take (9 * y) ++ row ++ cells.drop (9 * y + 9))

/-- `decode_board`: split on slashes and copy each decoded row into the
81-cell array, with no check on the number of segments. -/
def decode_board (s_board : List Char) : Res Board :=
  board_rows_go (split_on_char '/' s_board) 0 (List.replicate 81 .Empty)

/-- `decode_side`. -/
def decode_side (s_side : List Char) : Res Side :=
  if s_side = ("b".toList) then .ok Side.Sente
  else if s_side = ("w".toList) then .ok Side.Gote
  else .err ("side: invalid string: ".toList ++ s_side)

/-- The scanner state of `decode_hands`: the two count arrays
(`counts: [[u8; 7]; 2]`) and the pending count `cur` (a `u8`). -/
structure HandsState where
  sente : Hand
  gote : Hand
  cur : Nat
  deriving DecidableEq

def HandsState.init : HandsState := ⟨Hand.emptyHand, Hand.emptyHand, 0⟩

def HandsState.count (st : HandsState) (side : Side) (pt : PieceType) : Nat :=
  match side with
  | .Sente => st.sente.count pt
  | .Gote => st.gote.count pt

def HandsState.addTo (st : HandsState) (side : Side) (pt : PieceType)
    (n : Nat) : HandsState :=
  match side with
  | .Sente => { st with sente := st.sente.add pt n }
  | .Gote => { st with gote := st.gote.add pt n }

/-- `State::eat` of `decode_hands`, one character.  A digit extends the
pending count through `checked_mul`/`checked_add` (exceeding the `u8` width
is a decode error).  A letter resolves side and kind, requires a hand
kind, and adds the effective count (the pending count, or 1 when it is
zero) to the running total with a plain `+=` — an unchecked `u8` addition,
whose overflow is a runtime abort (debug) or a wrap (release), not a decode
error; modelled as `fatal`. -/
def hands_eat (st : HandsState) (c : Char) : Res HandsState :=
  if '0' ≤ c ∧ c ≤ '9' then
    let m := st.cur * 10
    if 255 < m then .err ("hands: overflow".toList)
    else
      let m2 := m + (c.toNat - 48)
      if 255 < m2 then .err ("hands: overflow".toList)
      else .ok { st with cur := m2 }
  else
    match char_to_side_pt c with
    | none => .err ("hands: invalid char: ".toList ++ [c])
    | some (side, pt) =>
      if pt.is_hand = false then
        .err ("hands: not hand piece: ".toList ++ [c])
      else
        let eff := if st.cur = 0 then 1 else st.cur
        if 255 < st.count side pt + eff then .fatal
        else
          let st2 := st.addTo side pt eff
          .ok { st2 with cur := 0 }

/-- The character loop of `decode_hands`. -/
def hands_eats (st : HandsState) : List Char → Res HandsState
  | [] => .ok st
  | c :: cs =>
      match hands_eat st c with
      | .ok st2 => hands_eats st2 cs
      | .err e => .err e
      | .fatal => .fatal

/-- `decode_hands`: a lone dash means two empty hands, otherwise scan. -/
def decode_hands (s_hands : List Char) : Res (Hand × Hand) :=
  if s_hands = ("-".toList) then .ok (Hand.emptyHand, Hand.emptyHand)
  else
    match hands_eats HandsState.init s_hands with
    | .ok st => .ok (st.sente, st.gote)
    | .err e => .err e
    | .fatal => .fatal

/-- Value of a digit string. -/
def digits_val (ds : List Char) : Nat :=
  ds.foldl (fun a c => a * 10 + (c.toNat - 48)) 0

def all_digits (ds : List Char) : Bool :=
  ds.all (fun c => decide ('0' ≤ c ∧ c ≤ '9'))

/-- `decode_ply`, through Rust's `i32::from_str`: an optional sign, then one
or more ASCII digits, and the value must fit in 32 signed bits (`from_str`
fails on overflow; the per-step checks are equivalent to the final range
test). -/
def decode_ply (s_ply : List Char) : Res Int :=
  match s_ply with
  | [] => .err ("ply: parse error".toList)
  | c :: rest =>
    let neg := c == '-'
    let ds := if c == '-' || c == '+' then rest else c :: rest
    if ds.isEmpty then .err ("ply: parse error".toList)
    else if all_digits ds = false then .err ("ply: parse error".toList)
    else
      let v : Nat := digits_val ds
      if neg then
        if 2 ^ 31 < v then .err ("ply: parse error".toList)
        else .ok (-(v : Int))
      else
        if 2 ^ 31 ≤ v then .err ("ply: parse error".toList)
        else .ok (v : Int)

/-- `chars_to_sq`: the file character must be a digit 1-9, the rank
character a letter a-i; both are then 0-indexed and passed to
`Square::new`. -/
def chars_to_sq (cx cy : Char) : Res Square :=
  if ¬('1' ≤ cx ∧ cx ≤ '9') then .err ("square: invalid x: ".toList ++ [cx])
  else if ¬('a' ≤ cy ∧ cy ≤ 'i') then
    .err ("square: invalid y: ".toList ++ [cy])
  else .ok (Square.new (cx.toNat - 49) (cy.toNat - 97))

/-- `decode_move`: the token is first copied into a 5-character buffer
(erroring past 5 characters, or short of 4); here the buffer is the token
padded to 5 with NUL.  A star in second place selects the drop form (the
length must then be exactly 4); otherwise two squares, and a fifth character
must be a plus and marks a promotion. -/
def decode_move (s_mv : List Char) : Res Move :=
  if 5 < s_mv.length then .err ("move: invalid string: ".toList ++ s_mv)
  else if s_mv.length < 4 then .err ("move: invalid string: ".toList ++ s_mv)
  else
    let pad : Char := Char.ofNat 0
    let cs := s_mv ++ List.replicate (5 - s_mv.length) pad
    if cs.getD 1 pad == '*' then
      if s_mv.length ≠ 4 then .err ("move: invalid string: ".toList ++ s_mv)
      else
        match char_to_pt (cs.getD 0 pad) with
        | none => .err ("move: invalid piece: ".toList ++ [cs.getD 0 pad])
        | some pt =>
          match chars_to_sq (cs.getD 2 pad) (cs.getD 3 pad) with
          | .ok dst => .ok (.drop pt dst)
          | .err e => .err e
          | .fatal => .fatal
    else
      if s_mv.length = 5 ∧ cs.getD 4 pad ≠ '+' then
        .err ("move: plus expected: ".toList ++ s_mv)
      else
        match chars_to_sq (cs.getD 0 pad) (cs.getD 1 pad) with
        | .err e => .err e
        | .fatal => .fatal
        | .ok src =>
          match chars_to_sq (cs.getD 2 pad) (cs.getD 3 pad) with
          | .err e => .err e
          | .fatal => .fatal
          | .ok dst => .ok (.nondrop src dst (s_mv.length == 5))

/-- The collect loop of `tokens_to_moves`. -/
def moves_map : List (List Char) → Res (List Move)
  | [] => .ok []
  | t :: ts =>
      match decode_move t with
      | .err e => .err e
      | .fatal => .fatal
      | .ok mv =>
          match moves_map ts with
          | .ok mvs => .ok (mv :: mvs)
          | .err e => .err e
          | .fatal => .fatal

/-- `tokens_to_moves`: no further token means no moves; otherwise the next
token must be the word `moves`, and every remaining token is one move. -/
def tokens_to_moves (toks : List (List Char)) : Res (List Move) :=
  match toks with
  | [] => .ok []
  | magic :: rest =>
      if magic = ("moves".toList) then moves_map rest
      else .err ("moves: moves expected".toList)

/-- The `SFEN_STARTPOS` literal. -/
def SFEN_STARTPOS : List Char :=
  ("sfen lnsgkgsnl/1r5b1/ppppppppp/9/9/9/PPPPPPPPP/1B5R1/LNSGKGSNL b - 1").toList

/-- The `"sfen"` arm of `tokens_to_pos`: take the four field tokens (else
the incomplete-position error), then decode board, side, hands and ply in
that order. -/
def tokens_to_pos_sfen :
    List (List Char) → Res (Position × List (List Char))
  | sb :: ss :: sh :: sp :: rest =>
      match decode_board sb with
      | .err e => .err e
      | .fatal => .fatal
      | .ok board =>
        match decode_side ss with
        | .err e => .err e
        | .fatal => .fatal
        | .ok side =>
          match decode_hands sh with
          | .err e => .err e
          | .fatal => .fatal
          | .ok hands =>
            match decode_ply sp with
            | .err e => .err e
            | .fatal => .fatal
            | .ok ply => .ok (⟨side, board, hands.1, hands.2, ply⟩, rest)
  | _ => .err ("position: incomplete".toList)

/-- `tokens_to_pos`.  On `startpos` the Rust function re-enters itself on
the token stream of `SFEN_STARTPOS`; that stream begins with `sfen`, so the
recursive call takes the `sfen` arm, which the embedding unrolls.  The
position comes from the literal, the remaining tokens from the original
stream (the `startpos` token consumes only itself). -/
def tokens_to_pos (toks : List (List Char)) :
    Res (Position × List (List Char)) :=
  match toks with
  | [] => .err ("position: incomplete".toList)
  | magic :: rest =>
      if magic = ("startpos".toList) then
        match tokens_to_pos_sfen ((split_ws SFEN_STARTPOS).drop 1) with
        | .ok pr => .ok (pr.1, rest)
        | .err e => .err e
        | .fatal => .fatal
      else if magic = ("sfen".toList) then tokens_to_pos_sfen rest
      else .err ("position: invalid magic: ".toList ++ magic)

/-- `decode`: tokenize on ASCII whitespace, decode the position, then the
moves from the remaining tokens. -/
def decode (sfen : List Char) : Res (Position × List Move) :=
  match tokens_to_pos (split_ws sfen) with
  | .err e => .err e
  | .fatal => .fatal
  | .ok (pos, rest) =>
      match tokens_to_moves rest with
      | .ok mvs => .ok (pos, mvs)
      | .err e => .err e
      | .fatal => .fatal

/-! ## Predicates and spec-side definitions used in theorem statements -/

/-- A piece kind that is not one of the six promoted forms. -/
def PieceType.unpromoted : PieceType → Bool
  | .ProPawn | .ProLance | .ProKnight | .ProSilver | .Horse | .Dragon => false
  | _ => true

/-- The invariant `Square::new` establishes for every square the library
constructs. -/
def Square.valid (sq : Square) : Bool := decide (sq.idx < 81)

/-- A move whose squares satisfy the `Square` invariant and whose dropped
kind, if any, is unpromoted. -/
def Move.valid : Move → Bool
  | .nondrop src dst _ => src.valid && dst.valid
  | .drop pt dst => pt.unpromoted && dst.valid

/-- Hand counts within the `u8` width, as the Rust `Hand` type enforces. -/
def Hand.le255 (h : Hand) : Bool :=
  decide (h.pawn ≤ 255) && decide (h.lance ≤ 255) && decide (h.knight ≤ 255) &&
    decide (h.silver ≤ 255) && decide (h.bishop ≤ 255) &&
    decide (h.rook ≤ 255) && decide (h.gold ≤ 255)

/-- The invariants the Rust `Position` type enforces by construction: an
81-cell board, `u8` hand counts, an `i32` ply. -/
def Position.valid (p : Position) : Bool :=
  decide (p.board.length = 81) && p.hand_sente.le255 && p.hand_gote.le255 &&
    decide (-(2 ^ 31) ≤ p.ply) && decide (p.ply < 2 ^ 31)

/-- Modelled from the claim wording of C4: one count-letter group of the
hands field — nothing for count 0, the decimal count when at least 2, the
uppercase letter for the first side and the lowercase letter for the
second. -/
def spec_group (side : Side) (count : Nat) (letter : Char) : List Char :=
  if count = 0 then []
  else
    (if 2 ≤ count then nat_to_chars count else []) ++
      [match side with | .Sente => letter | .Gote => letter.toLower]

/-- Modelled from the claim wording of C4: iterate piece types in the fixed
order Rook, Bishop, Gold, Silver, Knight, Lance, Pawn and, for each type,
emit the first side's group before the second side's. -/
def hands_spec_type_major (hs hg : Hand) : List Char :=
  spec_group .Sente hs.rook 'R' ++ spec_group .Gote hg.rook 'R' ++
    spec_group .Sente hs.bishop 'B' ++ spec_group .Gote hg.bishop 'B' ++
    spec_group .Sente hs.gold 'G' ++ spec_group .Gote hg.gold 'G' ++
    spec_group .Sente hs.silver 'S' ++ spec_group .Gote hg.silver 'S' ++
    spec_group .Sente hs.knight 'N' ++ spec_group .Gote hg.knight 'N' ++
    spec_group .Sente hs.lance 'L' ++ spec_group .Gote hg.lance 'L' ++
    spec_group .Sente hs.pawn 'P' ++ spec_group .Gote hg.pawn 'P'

/-- One side's groups in the order Rook, Bishop, Gold, Silver, Knight,
Lance, Pawn (the amended reading of C4). -/
def spec_side_groups (side : Side) (h : Hand) : List Char :=
  spec_group side h.rook 'R' ++ spec_group side h.bishop 'B' ++
    spec_group side h.gold 'G' ++ spec_group side h.silver 'S' ++
    spec_group side h.knight 'N' ++ spec_group side h.lance 'L' ++
    spec_group side h.pawn 'P'

/-- The amended reading of C4: iterate sides in the order first, second and
within each side the types in the fixed order, concatenated with no
separators. -/
def hands_spec_side_major (hs hg : Hand) : List Char :=
  spec_side_groups .Sente hs ++ spec_side_groups .Gote hg

/-- The unpromoted base kind whose letter appears in the textual form of a
piece (the six promoted forms print the base letter behind a plus). -/
def base_pt : PieceType → PieceType
  | .ProPawn => .Pawn
  | .ProLance => .Lance
  | .ProKnight => .Knight
  | .ProSilver => .Silver
  | .Horse => .Bishop
  | .Dragon => .Rook
  | pt => pt

/-- The letter character of a piece in the textual form (the last character
of `encode_piece`). -/
def pt_letter (side : Side) (pt : PieceType) : Char :=
  match (encode_piece side pt).getLast? with
  | some c => c
  | none => 'P'

/-! ## Theorems -/

set_option maxRecDepth 40000

/-- C2, counterexample: the claim says a board field that does not split
into exactly 9 rows is rejected with a decode error; in fact an input whose
board field has only 8 rows decodes successfully. -/
theorem C2_counterexample :
    (decode ("sfen 9/9/9/9/9/9/9/9 b - 1".toList)).isOk = true := by decide

/-- C2, amended: `decode_board` performs no check on the number of
slash-separated segments.  Fewer than 9 rows decode successfully, the
missing cells silently left empty (an 8-row board field yields the all-empty
81-cell board, and the full decode succeeds); more than 9 rows make the copy
into the 81-cell array run out of bounds — a runtime abort, not a decode
error. -/
theorem C2_amended :
    decode_board ("9/9/9/9/9/9/9/9".toList) =
        .ok (List.replicate 81 .Empty) ∧
      decode ("sfen 9/9/9/9/9/9/9/9 b - 1".toList) =
        .ok (⟨.Sente, List.replicate 81 .Empty, Hand.emptyHand,
          Hand.emptyHand, 1⟩, []) ∧
      decode_board ("9/9/9/9/9/9/9/9/9/9".toList) = .fatal :=
  ⟨by decide, by decide, by decide⟩

/-- C3, code bug: the claim (and the spec) require a row that ends with a
pending promotion marker to be rejected, but `decode_board_row` never
inspects the pending flag after its loop: the row `8+` is accepted and the
trailing plus silently dropped, yielding nine empty cells. -/
theorem C3_code_bug_eval :
    decode_board_row ("8+".toList) = .ok (List.replicate 9 .Empty) := by
  decide

/-- C7, counterexample: the claim says an input ending in a bare `moves`
token is rejected; in fact `decode ("startpos moves")` succeeds. -/
theorem C7_counterexample :
    (decode ("startpos moves".toList)).isOk = true := by decide

/-- C7, amended: a final `moves` token with no move tokens after it is
accepted and yields the empty move list, so `decode ("startpos moves")`
equals `decode ("startpos")`. -/
theorem C7_amended :
    decode ("startpos moves".toList) = decode ("startpos".toList) ∧
      tokens_to_moves [("moves".toList)] = .ok [] :=
  ⟨by decide, rfl⟩

/-- C4, counterexample: with one Sente pawn and one Gote rook in hand (a
non-empty configuration), the encoder emits `Pr` — all of the first side's
groups before the second side's — not the type-major interleaving `rP` the
claim describes. -/
theorem C4_counterexample :
    (Hand.is_empty ⟨1, 0, 0, 0, 0, 0, 0⟩ &&
        Hand.is_empty ⟨0, 0, 0, 0, 0, 1, 0⟩) = false ∧
      encode_hands ⟨1, 0, 0, 0, 0, 0, 0⟩ ⟨0, 0, 0, 0, 0, 1, 0⟩ =
        ("Pr".toList) ∧
      hands_spec_type_major ⟨1, 0, 0, 0, 0, 0, 0⟩ ⟨0, 0, 0, 0, 0, 1, 0⟩ =
        ("rP".toList) :=
  ⟨by decide, by decide, by decide⟩

/-- C4, amended: when at least one hand count is nonzero, `encode_hands`
iterates the sides in the order first, second and, within each side, the
piece types in the fixed order Rook, Bishop, Gold, Silver, Knight, Lance,
Pawn, emitting for each (side, type) pair with nonzero count the decimal
count (only for counts at least 2) followed by the letter, uppercase for the
first side and lowercase for the second, with no separators. -/
theorem C4_amended (hs hg : Hand)
    (h : (hs.is_empty && hg.is_empty) = false) :
    encode_hands hs hg = hands_spec_side_major hs hg := by
  simp only [encode_hands, h, Bool.false_eq_true, if_false, ENC_PTS,
    List.map_cons, List.map_nil, List.flatten_cons, List.flatten_nil,
    List.append_nil, hands_spec_side_major, spec_side_groups, spec_group,
    hand_group, encode_piece, encode_pt, Hand.count, List.map_cons,
    List.append_assoc]

/-- C4, amended, witness. -/
theorem C4_amended_witness :
    ((Hand.is_empty ⟨1, 0, 0, 0, 0, 0, 0⟩ &&
        Hand.is_empty Hand.emptyHand) = false) ∧
      encode_hands ⟨1, 0, 0, 0, 0, 0, 0⟩ Hand.emptyHand =
        hands_spec_side_major ⟨1, 0, 0, 0, 0, 0, 0⟩ Hand.emptyHand :=
  ⟨by decide, C4_amended _ _ (by decide)⟩

/-- C9: `7g7f` decodes to the nondrop from file character 7, rank character
g (0-indexed coordinates (6,6)) to (6,5) without promotion; `8h2b+` to the
nondrop (7,7)-(1,1) with promotion; `B*4e` to a Bishop drop at (3,4); and
any token whose length is not 4 or 5 — in particular of length 3 or 6 — is
rejected with a decode error. -/
theorem C9_move_tokens :
    decode_move ("7g7f".toList) =
        .ok (.nondrop (Square.new 6 6) (Square.new 6 5) false) ∧
      decode_move ("8h2b+".toList) =
        .ok (.nondrop (Square.new 7 7) (Square.new 1 1) true) ∧
      decode_move ("B*4e".toList) = .ok (.drop .Bishop (Square.new 3 4)) ∧
      ∀ s : List Char, s.length ≠ 4 → s.length ≠ 5 →
        (decode_move s).isErr = true := by
  refine ⟨by decide, by decide, by decide, ?_⟩
  intro s h4 h5
  by_cases hgt : 5 < s.length
  · simp [decode_move, hgt, Res.isErr]
  · have hlt : s.length < 4 := by omega
    simp [decode_move, hgt, hlt, Res.isErr]

/-- C9, witness: the length-3 token `7g7` is rejected. -/
theorem C9_move_tokens_witness :
    ("7g7".toList).length ≠ 4 ∧ ("7g7".toList).length ≠ 5 ∧
      (decode_move ("7g7".toList)).isErr = true :=
  ⟨by decide, by decide,
    C9_move_tokens.2.2.2 ("7g7".toList) (by decide) (by decide)⟩

/-- C8: `decode ("startpos")` equals the decode of the full startpos sfen
literal, and the `startpos` token consumes only itself — for any remaining
token stream, parsing the position after `startpos` gives the same result
as parsing it after the five tokens of the literal, the trailing tokens
handed back unchanged. -/
theorem C8_startpos_equiv :
    decode ("startpos".toList) = decode SFEN_STARTPOS ∧
      ∀ rest : List (List Char),
        tokens_to_pos (("startpos".toList) :: rest) =
          tokens_to_pos (split_ws SFEN_STARTPOS ++ rest) :=
  ⟨by decide, fun rest => rfl⟩

/-! ### Decimal rendering helpers -/

theorem digit_char_class : ∀ k, k < 10 →
    ('0' ≤ digit_char k ∧ digit_char k ≤ '9') ∧
      (digit_char k).toNat - 48 = k := by decide

theorem nat_to_chars_go_mono :
    ∀ f g n, n < f → n < g → nat_to_chars_go f n = nat_to_chars_go g n := by
  intro f
  induction f with
  | zero => intro g n h; omega
  | succ f ih =>
      intro g n hf hg
      cases g with
      | zero => omega
      | succ g =>
          by_cases h10 : n < 10
          · simp [nat_to_chars_go, h10]
          · have hd : n / 10 < n := Nat.div_lt_self (by omega) (by omega)
            simp only [nat_to_chars_go, h10, if_false]
            rw [ih g (n / 10) (by omega) (by omega)]

theorem nat_to_chars_small (n : Nat) (h : n < 10) :
    nat_to_chars n = [digit_char n] := by
  simp [nat_to_chars, nat_to_chars_go, h]

theorem nat_to_chars_step (n : Nat) (h : 10 ≤ n) :
    nat_to_chars n = nat_to_chars (n / 10) ++ [digit_char (n % 10)] := by
  have h10 : ¬n < 10 := by omega
  have hd : n / 10 < n := Nat.div_lt_self (by omega) (by omega)
  show nat_to_chars_go (n + 1) n = _
  rw [show nat_to_chars_go (n + 1) n
      = if n < 10 then [digit_char n]
        else nat_to_chars_go n (n / 10) ++ [digit_char (n % 10)] from rfl,
    if_neg h10]
  congr 1
  exact nat_to_chars_go_mono n (n / 10 + 1) (n / 10) (by omega) (by omega)

theorem nat_to_chars_ne_nil (n : Nat) : nat_to_chars n ≠ [] := by
  by_cases h : n < 10
  · rw [nat_to_chars_small n h]; simp
  · rw [nat_to_chars_step n (by omega)]; simp

theorem mem_nat_to_chars :
    ∀ n, ∀ c ∈ nat_to_chars n, '0' ≤ c ∧ c ≤ '9' := by
  intro n
  induction n using Nat.strong_induction_on with
  | _ n ih =>
      intro c hc
      by_cases h : n < 10
      · rw [nat_to_chars_small n h] at hc
        simp only [List.mem_singleton] at hc
        subst hc
        exact (digit_char_class n h).1
      · rw [nat_to_chars_step n (by omega)] at hc
        rcases List.mem_append.1 hc with h1 | h2
        · exact ih (n / 10) (Nat.div_lt_self (by omega) (by omega)) c h1
        · simp only [List.mem_singleton] at h2
          subst h2
          exact (digit_char_class (n % 10) (by omega)).1

theorem digits_val_append (xs : List Char) (c : Char) :
    digits_val (xs ++ [c]) = digits_val xs * 10 + (c.toNat - 48) := by
  simp [digits_val, List.foldl_append]

theorem digits_val_nat_to_chars : ∀ n, digits_val (nat_to_chars n) = n := by
  intro n
  induction n using Nat.strong_induction_on with
  | _ n ih =>
      by_cases h : n < 10
      · rw [nat_to_chars_small n h]
        have := (digit_char_class n h).2
        simp [digits_val, this]
      · rw [nat_to_chars_step n (by omega), digits_val_append,
          ih (n / 10) (Nat.div_lt_self (by omega) (by omega)),
          (digit_char_class (n % 10) (by omega)).2]
        omega

/-! ### Hands scanner helpers -/

theorem hands_eat_digit (st : HandsState) (k : Nat) (hk : k < 10)
    (hle : st.cur * 10 + k ≤ 255) :
    hands_eat st (digit_char k) = .ok { st with cur := st.cur * 10 + k } := by
  have h1 := (digit_char_class k hk).1
  have h2 := (digit_char_class k hk).2
  have hm : ¬255 < st.cur * 10 := by omega
  have hm2 : ¬255 < st.cur * 10 + ((digit_char k).toNat - 48) := by omega
  simp [hands_eat, if_pos h1, hm, hm2, h2]
  omega

theorem hands_eat_letter (st : HandsState) (c : Char) (side : Side)
    (pt : PieceType) (hnd : ¬('0' ≤ c ∧ c ≤ '9'))
    (hc : char_to_side_pt c = some (side, pt)) (hh : pt.is_hand = true)
    (hle : st.count side pt + (if st.cur = 0 then 1 else st.cur) ≤ 255) :
    hands_eat st c =
      .ok { st.addTo side pt (if st.cur = 0 then 1 else st.cur) with
        cur := 0 } := by
  have hlt := Nat.not_lt.2 hle
  simp [hands_eat, if_neg hnd, hc, hh, hlt]

theorem hands_eats_append (a b : List Char) : ∀ st : HandsState,
    hands_eats st (a ++ b) =
      match hands_eats st a with
      | .ok st2 => hands_eats st2 b
      | .err e => .err e
      | .fatal => .fatal := by
  induction a with
  | nil => intro st; simp [hands_eats]
  | cons c cs ih =>
      intro st
      simp only [List.cons_append, hands_eats]
      cases hands_eat st c <;> simp [ih]

theorem hands_eats_digits (n : Nat) (hn : n ≤ 255) :
    ∀ st : HandsState, st.cur = 0 →
      hands_eats st (nat_to_chars n) = .ok { st with cur := n } := by
  induction n using Nat.strong_induction_on with
  | _ n ih =>
      intro st h0
      by_cases h : n < 10
      · rw [nat_to_chars_small n h]
        have he := hands_eat_digit st n h (by omega)
        rw [h0] at he
        simp only [Nat.zero_mul, Nat.zero_add] at he
        simp [hands_eats, he]
      · rw [nat_to_chars_step n (by omega),
          hands_eats_append (nat_to_chars (n / 10)) [digit_char (n % 10)] st,
          ih (n / 10) (Nat.div_lt_self (by omega) (by omega)) (by omega) st h0]
        have he := hands_eat_digit { st with cur := n / 10 } (n % 10)
          (by omega) (by simp; omega)
        simp only at he
        have heq : n / 10 * 10 + n % 10 = n := by omega
        rw [heq] at he
        simp [hands_eats, he]

theorem hands_eats_digits_overflow (n : Nat) (hn : 255 < n) :
    ∀ (st : HandsState) (rest : List Char), st.cur = 0 →
      (hands_eats st (nat_to_chars n ++ rest)).isErr = true := by
  induction n using Nat.strong_induction_on with
  | _ n ih =>
      intro st rest h0
      have h10 : 10 ≤ n := by omega
      rw [nat_to_chars_step n h10, List.append_assoc,
        hands_eats_append (nat_to_chars (n / 10))
          ([digit_char (n % 10)] ++ rest) st]
      by_cases hq : 255 < n / 10
      · have := ih (n / 10) (Nat.div_lt_self (by omega) (by omega)) hq st
          ([digit_char (n % 10)] ++ rest) h0
        rw [hands_eats_append] at this
        exact this
      · rw [hands_eats_digits (n / 10) (by omega) st h0]
        have hdig := (digit_char_class (n % 10) (by omega)).1
        have hval := (digit_char_class (n % 10) (by omega)).2
        simp only [List.cons_append, List.nil_append, hands_eats]
        by_cases hm : 255 < n / 10 * 10
        · simp [hands_eat, if_pos hdig, hm, Res.isErr]
        · have hm2 : 255 < n / 10 * 10 + ((digit_char (n % 10)).toNat - 48) := by
            rw [hval]; omega
          simp [hands_eat, if_pos hdig, hm, hm2, Res.isErr]

/-- C5, counterexample: the claim says every hands-decoding overflow is
reported as a decode error with no panic and no wrap; but on the hands field
`200p100p` (second letter-group addition overflowing the `u8` total) decode
hits the unchecked `+=` — a runtime abort, not a decode error. -/
theorem C5_counterexample :
    decode ("sfen 9/9/9/9/9/9/9/9/9 b 200p100p 1".toList) = .fatal := by
  decide

/-- C5, amended: overflow while accumulating a multi-digit count (through
`checked_mul`/`checked_add`) is reported as a decode error — for every
literal count above 255 the hands decoder errs — but the addition of an
effective count onto the running per-side-per-type total is an unchecked
`u8` addition: on overflow it aborts (debug) or wraps (release) instead of
returning a decode error, modelled by `fatal`. -/
theorem C5_amended :
    (∀ n : Nat, 255 < n →
        (decode_hands (nat_to_chars n ++ ['p'])).isErr = true) ∧
      decode_hands ("200p100p".toList) = .fatal := by
  constructor
  · intro n hn
    have hne : nat_to_chars n ++ ['p'] ≠ ("-".toList) := by
      intro h
      have hl := congrArg List.length h
      have := nat_to_chars_ne_nil n
      simp [List.length_append] at hl
      cases hcs : nat_to_chars n with
      | nil => exact this hcs
      | cons a as => rw [hcs] at hl; simp at hl
    have hov := hands_eats_digits_overflow n hn HandsState.init ['p'] rfl
    simp only [decode_hands, if_neg hne]
    cases hres : hands_eats HandsState.init (nat_to_chars n ++ ['p']) with
    | ok st => rw [hres] at hov; simp [Res.isErr] at hov
    | err e => simp [Res.isErr]
    | fatal => rw [hres] at hov; simp [Res.isErr] at hov
  · decide

/-- C5, amended, witness: the literal count 256 errs. -/
theorem C5_amended_witness :
    (255 < 256 ∧
        (decode_hands (nat_to_chars 256 ++ ['p'])).isErr = true) ∧
      decode_hands ("200p100p".toList) = .fatal :=
  ⟨⟨by omega, C5_amended.1 256 (by omega)⟩, C5_amended.2⟩

theorem hands_eat_letter_p (st : HandsState) (ha : 1 ≤ st.cur)
    (hle : st.gote.pawn + st.cur ≤ 255) :
    hands_eat st 'p' =
      .ok { st with
            gote := { st.gote with pawn := st.gote.pawn + st.cur },
            cur := 0 } := by
  have hif : (if st.cur = 0 then 1 else st.cur) = st.cur := if_neg (by omega)
  have h := hands_eat_letter st 'p' .Gote .Pawn (by decide) (by decide) rfl
    (by simp only [HandsState.count, Hand.count, hif]; exact hle)
  rw [hif] at h
  simpa only [HandsState.addTo, Hand.add] using h

/-- C6: in hands decoding the effective count of a letter is the pending
count when nonzero (else 1) and it is added onto any pre-existing total for
the same side and piece type: two pawn groups with counts `a` and `b` yield
the total `a + b` for the second side, the field `2p3p` yields 5 pawns, and
two bare `p` letters (effective count 1 each) yield 2. -/
theorem C6_hands_accumulate :
    (∀ a b : Nat, 1 ≤ a → 1 ≤ b → a + b ≤ 255 →
        decode_hands (nat_to_chars a ++ ['p'] ++ nat_to_chars b ++ ['p']) =
          .ok (Hand.emptyHand, ⟨a + b, 0, 0, 0, 0, 0, 0⟩)) ∧
      decode_hands ("2p3p".toList) =
        .ok (Hand.emptyHand, ⟨5, 0, 0, 0, 0, 0, 0⟩) ∧
      decode_hands ("pp".toList) =
        .ok (Hand.emptyHand, ⟨2, 0, 0, 0, 0, 0, 0⟩) := by
  refine ⟨?_, by decide, by decide⟩
  intro a b ha hb hab
  have hlena : 0 < (nat_to_chars a).length :=
    List.length_pos.2 (nat_to_chars_ne_nil a)
  have hlenb : 0 < (nat_to_chars b).length :=
    List.length_pos.2 (nat_to_chars_ne_nil b)
  have hne : nat_to_chars a ++ ['p'] ++ nat_to_chars b ++ ['p'] ≠
      ("-".toList) := by
    intro h
    have hl := congrArg List.length h
    simp [List.length_append] at hl
    omega
  simp only [decode_hands, if_neg hne]
  rw [List.append_assoc, List.append_assoc,
    hands_eats_append (nat_to_chars a) _ HandsState.init,
    hands_eats_digits a (by omega) HandsState.init rfl]
  have h1 := hands_eat_letter_p { HandsState.init with cur := a } ha
    (by simp [HandsState.init, Hand.emptyHand]; omega)
  simp only [List.cons_append, List.append_eq, List.nil_append, hands_eats,
    h1]
  rw [hands_eats_append (nat_to_chars b) ['p'] _,
    hands_eats_digits b (by omega) _ rfl]
  have h2 := hands_eat_letter_p
    { { { HandsState.init with cur := a } with
          gote := { { HandsState.init with cur := a }.gote with
            pawn := { HandsState.init with cur := a }.gote.pawn +
              { HandsState.init with cur := a }.cur },
          cur := 0 } with cur := b } hb
      (by simp [HandsState.init, Hand.emptyHand]; omega)
  simp only [List.cons_append, List.nil_append, hands_eats, h2]
  simp [HandsState.init, Hand.emptyHand]

/-- C6, witness. -/
theorem C6_hands_accumulate_witness :
    ((1 ≤ 2 ∧ 1 ≤ 3 ∧ 2 + 3 ≤ 255) ∧
        decode_hands (nat_to_chars 2 ++ ['p'] ++ nat_to_chars 3 ++ ['p']) =
          .ok (Hand.emptyHand, ⟨2 + 3, 0, 0, 0, 0, 0, 0⟩)) ∧
      decode_hands ("pp".toList) =
        .ok (Hand.emptyHand, ⟨2, 0, 0, 0, 0, 0, 0⟩) :=
  ⟨⟨⟨by omega, by omega, by omega⟩,
      C6_hands_accumulate.1 2 3 (by omega) (by omega) (by omega)⟩,
    C6_hands_accumulate.2.2⟩

/-! ### Row scanner helpers -/

theorem piece_letter_bundle :
    ∀ (side : Side) (pt : PieceType),
      encode_piece side pt =
          (if pt.unpromoted then [] else ['+']) ++ [pt_letter side pt] ∧
        char_to_side_pt (pt_letter side pt) = some (side, base_pt pt) ∧
        (pt.unpromoted = true → base_pt pt = pt) ∧
        (pt.unpromoted = false → (base_pt pt).to_promoted = some pt) ∧
        (pt_letter side pt == '+') = false ∧
        ¬('1' ≤ pt_letter side pt ∧ pt_letter side pt ≤ '9') ∧
        ¬('0' ≤ pt_letter side pt ∧ pt_letter side pt ≤ '9') := by decide

theorem piece_chars_class :
    ∀ (side : Side) (pt : PieceType), ∀ c ∈ encode_piece side pt,
      is_ws c = false ∧ c ≠ '/' := by decide

theorem row_digit_facts : ∀ n, 1 ≤ n → n ≤ 9 →
    (digit_char n == '+') = false ∧
      ('1' ≤ digit_char n ∧ digit_char n ≤ '9') ∧
      (digit_char n).toNat - 48 = n := by decide

theorem row_eat_plus (st : RowState) (hp : st.promo = false)
    (hlen : st.len + 1 ≤ 9) :
    row_eat st '+' = .ok { st with promo := true } := by
  simp [row_eat, hp, Nat.not_lt.2 hlen]

theorem row_eat_digit (st : RowState) (n : Nat) (h1 : 1 ≤ n) (h9 : n ≤ 9)
    (hp : st.promo = false) (hlen : st.len + n ≤ 9) :
    row_eat st (digit_char n) = .ok { st with len := st.len + n } := by
  obtain ⟨hne, hd, hv⟩ := row_digit_facts n h1 h9
  simp [row_eat, hne, hd, hp, hv, Nat.not_lt.2 hlen]

theorem row_eat_letter (st : RowState) (c : Char) (side : Side)
    (pt : PieceType) (hplus : (c == '+') = false)
    (hdig : ¬('1' ≤ c ∧ c ≤ '9')) (hc : char_to_side_pt c = some (side, pt))
    (hp : st.promo = false) (hlen : st.len + 1 ≤ 9) :
    row_eat st c =
      .ok ⟨st.row.set st.len (.Piece side pt), st.len + 1, false⟩ := by
  simp [row_eat, hplus, hdig, hc, hp, Nat.not_lt.2 hlen]

theorem row_eat_letter_promo (st : RowState) (c : Char) (side : Side)
    (pt ppt : PieceType) (hplus : (c == '+') = false)
    (hdig : ¬('1' ≤ c ∧ c ≤ '9')) (hc : char_to_side_pt c = some (side, pt))
    (hpp : pt.to_promoted = some ppt) (hp : st.promo = true)
    (hlen : st.len + 1 ≤ 9) :
    row_eat st c =
      .ok ⟨st.row.set st.len (.Piece side ppt), st.len + 1, false⟩ := by
  simp [row_eat, hplus, hdig, hc, hpp, hp, Nat.not_lt.2 hlen]

theorem row_eats_piece (st : RowState) (side : Side) (pt : PieceType)
    (hp : st.promo = false) (hlen : st.len + 1 ≤ 9) (rest : List Char) :
    row_eats st (encode_piece side pt ++ rest) =
      row_eats ⟨st.row.set st.len (.Piece side pt), st.len + 1, false⟩
        rest := by
  obtain ⟨henc, hlook, hbase, hprom, hplus, hdig, _⟩ :=
    piece_letter_bundle side pt
  rw [henc]
  cases hunp : pt.unpromoted with
  | true =>
      have hc := hlook
      rw [hbase hunp] at hc
      simp only [if_pos hunp, List.nil_append, List.cons_append,
        List.nil_append, row_eats,
        row_eat_letter st _ side pt hplus hdig hc hp hlen]
      rfl
  | false =>
      have hpp := hprom hunp
      simp only [hunp, Bool.false_eq_true, if_false, List.cons_append,
        List.nil_append, row_eats, row_eat_plus st hp hlen]
      have hp2 : ({ st with promo := true } : RowState).promo = true := rfl
      rw [row_eat_letter_promo { st with promo := true } _ side (base_pt pt)
        pt hplus hdig hlook hpp hp2 hlen]
      rfl

theorem drop_suffix_replicate (row : List BoardCell) (len k : Nat)
    (h : row.drop len = List.replicate (9 - len) .Empty) :
    row.drop (len + k) = List.replicate (9 - (len + k)) .Empty := by
  rw [← List.drop_drop, h]
  simp [List.drop_replicate, Nat.sub_sub]

theorem row_take_assemble (row : List BoardCell) (m : Nat)
    (h : row.drop m = List.replicate (9 - m) .Empty) :
    row = row.take m ++ List.replicate (9 - m) .Empty := by
  conv_lhs => rw [← List.take_append_drop m row]
  rw [h]

theorem drop_append_len {α : Type} (A B : List α) (m i : Nat)
    (hA : A.length = m) : (A ++ B).drop (m + i) = B.drop i := by
  rw [← hA]
  exact List.drop_append i

theorem take_append_len {α : Type} (A B : List α) (m i : Nat)
    (hA : A.length = m) : (A ++ B).take (m + i) = A ++ B.take i := by
  rw [← hA]
  exact List.take_append i

theorem row_eats_enc :
    ∀ (cs : List BoardCell) (st : RowState) (n : Nat),
      st.promo = false → st.row.length = 9 →
      st.row.drop st.len = List.replicate (9 - st.len) .Empty →
      st.len + n + cs.length ≤ 9 →
      row_eats st (enc_row_go cs n) =
        .ok ⟨st.row.take (st.len + n) ++ cs ++
            List.replicate (9 - (st.len + n + cs.length)) .Empty,
          st.len + n + cs.length, false⟩ := by
  intro cs
  induction cs with
  | nil =>
      intro st n hp hlen9 hsuf hbound
      obtain ⟨row, len, promo⟩ := st
      simp only at hp hlen9 hsuf hbound ⊢
      subst hp
      simp only [List.length_nil, Nat.add_zero] at hbound ⊢
      have hsufn : row.drop (len + n)
          = List.replicate (9 - (len + n)) .Empty :=
        drop_suffix_replicate row len n hsuf
      by_cases hn : n = 0
      · subst hn
        simp only [enc_row_go, flush_emptys, if_pos rfl, row_eats,
          Nat.add_zero, List.append_nil]
        rw [← row_take_assemble row len hsuf]
      · simp only [enc_row_go, flush_emptys, if_neg hn]
        have hd := row_eat_digit ⟨row, len, false⟩ n (by omega) (by omega)
          rfl (by show len + n ≤ 9; omega)
        simp only [row_eats, hd, List.append_nil]
        rw [← row_take_assemble row (len + n) hsufn]
  | cons cell cs' ih =>
      intro st n hp hlen9 hsuf hbound
      simp only [List.length_cons] at hbound
      cases cell with
      | Empty =>
          simp only [enc_row_go]
          rw [ih st (n + 1) hp hlen9 hsuf (by omega)]
          have hidx : st.row[st.len + n]? = some BoardCell.Empty := by
            have hg := List.getElem?_drop st.row st.len n
            rw [hsuf, List.getElem?_replicate, if_pos (by omega)] at hg
            exact hg.symm
          have hE : st.len + (n + 1) = st.len + n + 1 := by omega
          have h2 : st.row.take (st.len + n + 1)
              = st.row.take (st.len + n) ++ [BoardCell.Empty] := by
            rw [List.take_succ, hidx]
            rfl
          have hE2 : st.len + (n + 1) + cs'.length
              = st.len + n + (cs'.length + 1) := by omega
          rw [hE2, hE, h2]
          simp [List.append_assoc]
      | Piece side pt =>
          have hkey : ∀ st1 : RowState, st1.promo = false →
              st1.row.length = 9 →
              st1.row.drop st1.len = List.replicate (9 - st1.len) .Empty →
              st1.len + 1 + cs'.length ≤ 9 →
              row_eats st1 (encode_piece side pt ++ enc_row_go cs' 0) =
                .ok ⟨st1.row.take st1.len ++
                    (BoardCell.Piece side pt :: cs') ++
                    List.replicate (9 - (st1.len + 1 + cs'.length)) .Empty,
                  st1.len + 1 + cs'.length, false⟩ := by
            intro st1 hp1 hlen1 hsuf1 hb1
            have hlt : st1.len < st1.row.length := by omega
            have hset : st1.row.set st1.len (.Piece side pt)
                = st1.row.take st1.len ++ .Piece side pt ::
                    st1.row.drop (st1.len + 1) := by
              rw [List.set_eq_take_append_cons_drop, if_pos hlt]
            have htklen : (st1.row.take st1.len).length = st1.len :=
              List.length_take_of_le (by omega)
            have hsufset : (st1.row.set st1.len (.Piece side pt)).drop
                (st1.len + 1) = List.replicate (9 - (st1.len + 1)) .Empty := by
              rw [hset, drop_append_len _ _ st1.len 1 htklen]
              simp only [List.drop_succ_cons, List.drop_zero]
              exact drop_suffix_replicate st1.row st1.len 1 hsuf1
            have htkset : (st1.row.set st1.len (.Piece side pt)).take
                (st1.len + 1)
                = st1.row.take st1.len ++ [BoardCell.Piece side pt] := by
              rw [hset, take_append_len _ _ st1.len 1 htklen]
              simp
            rw [row_eats_piece st1 side pt hp1 (by omega) _,
              ih ⟨st1.row.set st1.len (.Piece side pt), st1.len + 1, false⟩
                0 rfl (by simp only [List.length_set]; exact hlen1)
                hsufset (by show st1.len + 1 + 0 + cs'.length ≤ 9; omega)]
            simp only [Nat.add_zero, htkset]
            simp [List.append_assoc]
          by_cases hn : n = 0
          · subst hn
            simp only [Nat.add_zero]
            rw [show enc_row_go (BoardCell.Piece side pt :: cs') 0
                = encode_piece side pt ++ enc_row_go cs' 0 from by
              simp [enc_row_go, flush_emptys]]
            rw [hkey st hp hlen9 hsuf (by omega)]
            have hE : st.len + 1 + cs'.length
                = st.len + (cs'.length + 1) := by omega
            rw [hE]
            simp [List.length_cons]
          · rw [show enc_row_go (BoardCell.Piece side pt :: cs') n
                = digit_char n :: (encode_piece side pt ++ enc_row_go cs' 0)
                from by simp [enc_row_go, flush_emptys, hn]]
            have hd := row_eat_digit st n (by omega) (by omega) hp
              (by omega)
            simp only [row_eats, hd]
            have hp1 : ({ st with len := st.len + n } : RowState).promo
                = false := hp
            rw [hkey { st with len := st.len + n } hp1 hlen9
              (drop_suffix_replicate st.row st.len n hsuf)
              (by show st.len + n + 1 + cs'.length ≤ 9; omega)]
            have hE : st.len + n + 1 + cs'.length
                = st.len + n + (cs'.length + 1) := by omega
            simp only
            rw [hE]
            simp [List.length_cons]

theorem decode_board_row_enc (r : List BoardCell) (hr : r.length = 9) :
    decode_board_row (encode_board_row r) = .ok r := by
  unfold decode_board_row encode_board_row
  rw [row_eats_enc r RowState.init 0 rfl (by simp [RowState.init])
    (by simp [RowState.init]) (by simp [RowState.init, hr])]
  simp [RowState.init, hr]

theorem flush_chars : ∀ n, n ≤ 9 → ∀ c ∈ flush_emptys n,
    is_ws c = false ∧ c ≠ '/' := by decide

theorem enc_row_chars : ∀ (cs : List BoardCell) (n : Nat),
    n + cs.length ≤ 9 → ∀ c ∈ enc_row_go cs n,
      is_ws c = false ∧ c ≠ '/' := by
  intro cs
  induction cs with
  | nil =>
      intro n hn c hc
      exact flush_chars n (by simpa using hn) c hc
  | cons cell cs' ih =>
      intro n hn c hc
      simp only [List.length_cons] at hn
      cases cell with
      | Empty => exact ih (n + 1) (by omega) c hc
      | Piece side pt =>
          simp only [enc_row_go, List.append_assoc, List.mem_append] at hc
          rcases hc with h | h | h
          · exact flush_chars n (by omega) c h
          · exact piece_chars_class side pt c h
          · exact ih 0 (by omega) c h

theorem split_on_char_ne_nil (sep : Char) :
    ∀ s, split_on_char sep s ≠ [] := by
  intro s
  cases s with
  | nil => simp [split_on_char]
  | cons c cs =>
      simp only [split_on_char]
      by_cases h : (c == sep) = true
      · simp [h]
      · simp only [h, Bool.false_eq_true, if_false]
        cases split_on_char sep cs <;> simp

theorem split_on_char_no_sep (sep : Char) :
    ∀ r, (∀ c ∈ r, c ≠ sep) → split_on_char sep r = [r] := by
  intro r
  induction r with
  | nil => intro; simp [split_on_char]
  | cons c cs ih =>
      intro h
      have hc : (c == sep) = false :=
        beq_eq_false_iff_ne.2 (h c (by simp))
      simp only [split_on_char, hc, Bool.false_eq_true, if_false]
      rw [ih (fun x hx => h x (by simp [hx]))]

theorem split_on_char_append (sep : Char) :
    ∀ r tail, (∀ c ∈ r, c ≠ sep) →
      split_on_char sep (r ++ sep :: tail) = r :: split_on_char sep tail := by
  intro r
  induction r with
  | nil => intro tail _; simp [split_on_char]
  | cons c cs ih =>
      intro tail h
      have hc : (c == sep) = false :=
        beq_eq_false_iff_ne.2 (h c (by simp))
      simp only [List.cons_append, List.append_eq, split_on_char, hc,
        Bool.false_eq_true, if_false]
      rw [ih tail (fun x hx => h x (by simp [hx]))]

theorem split_on_join (sep : Char) :
    ∀ rows, rows ≠ [] → (∀ r ∈ rows, ∀ c ∈ r, c ≠ sep) →
      split_on_char sep (join_sep [sep] rows) = rows := by
  intro rows
  induction rows with
  | nil => intro h; exact absurd rfl h
  | cons r rs ih =>
      intro _ hall
      cases rs with
      | nil =>
          simp only [join_sep]
          exact split_on_char_no_sep sep r (hall r (by simp))
      | cons r2 rs' =>
          simp only [join_sep, List.append_assoc, List.singleton_append]
          rw [split_on_char_append sep r _ (hall r (by simp)),
            ih (by simp) (fun x hx c hc => hall x (by simp [hx]) c hc)]

theorem chunks9_spec :
    ∀ (k fuel : Nat) (l : List BoardCell), l.length = 9 * k → k ≤ fuel →
      (chunks9 fuel l).flatten = l ∧
        (∀ r ∈ chunks9 fuel l, r.length = 9) ∧
        (chunks9 fuel l).length = k := by
  intro k
  induction k with
  | zero =>
      intro fuel l hl _
      have : l = [] := List.length_eq_zero.1 (by omega)
      subst this
      cases fuel <;> simp [chunks9]
  | succ k ihk =>
      intro fuel l hl hf
      cases fuel with
      | zero => omega
      | succ f =>
          cases l with
          | nil => simp at hl
          | cons a as =>
              have hstep : chunks9 (f + 1) (a :: as)
                  = (a :: as).take 9 :: chunks9 f ((a :: as).drop 9) := by
                simp [chunks9]
              have hdlen : ((a :: as).drop 9).length = 9 * k := by
                simp only [List.length_drop]
                simp only [List.length_cons] at hl ⊢
                omega
              obtain ⟨hfl, hlens, hcnt⟩ := ihk f _ hdlen (by omega)
              have htlen : ((a :: as).take 9).length = 9 := by
                rw [List.length_take_of_le (by simp only [List.length_cons] at hl ⊢; omega)]
              refine ⟨?_, ?_, ?_⟩
              · rw [hstep]
                simp only [List.flatten_cons, hfl, List.take_append_drop]
              · rw [hstep]
                intro r hr
                rcases List.mem_cons.1 hr with rfl | hr2
                · exact htlen
                · exact hlens r hr2
              · rw [hstep]
                simp only [List.length_cons, hcnt]

theorem board_rows_go_enc :
    ∀ (rows : List (List BoardCell)) (y : Nat) (cells : List BoardCell),
      (∀ r ∈ rows, r.length = 9) → cells.length = 81 →
      9 * (y + rows.length) ≤ 81 →
      board_rows_go (rows.map encode_board_row) y cells =
        .ok (cells.take (9 * y) ++ rows.flatten ++
          cells.drop (9 * y + 9 * rows.length)) := by
  intro rows
  induction rows with
  | nil =>
      intro y cells _ hc _
      simp only [List.map_nil, board_rows_go, List.flatten_nil,
        List.append_nil, List.length_nil, Nat.mul_zero, Nat.add_zero]
      rw [List.take_append_drop]
  | cons r rs ih =>
      intro y cells hlens hc hbound
      simp only [List.length_cons] at hbound
      have hr9 : r.length = 9 := hlens r (by simp)
      simp only [List.map_cons, board_rows_go,
        decode_board_row_enc r hr9]
      rw [if_neg (by omega)]
      have htk : (cells.take (9 * y)).length = 9 * y :=
        List.length_take_of_le (by omega)
      have hclen : (cells.take (9 * y) ++ r ++ cells.drop (9 * y + 9)).length
          = 81 := by
        simp only [List.length_append, htk, hr9, List.length_drop, hc]
        omega
      rw [ih (y + 1) _ (fun x hx => hlens x (by simp [hx])) hclen (by omega)]
      have he1 : 9 * (y + 1) = 9 * y + 9 := by ring
      have htake : (cells.take (9 * y) ++ r ++ cells.drop (9 * y + 9)).take
          (9 * (y + 1)) = cells.take (9 * y) ++ r := by
        rw [he1, List.append_assoc,
          take_append_len _ _ (9 * y) 9 htk, List.take_left' hr9]
      have hdrop : ∀ z, (cells.take (9 * y) ++ r ++ cells.drop (9 * y + 9)).drop
          (9 * (y + 1) + z) = cells.drop (9 * y + 9 + z) := by
        intro z
        rw [he1, drop_append_len (cells.take (9 * y) ++ r) _ (9 * y + 9) z
          (by simp [htk, hr9]), List.drop_drop]
      have he2 : 9 * y + 9 + 9 * rs.length = 9 * y + 9 * (rs.length + 1) := by
        ring
      rw [htake, hdrop (9 * rs.length), he2]
      simp [List.flatten_cons, List.length_cons, List.append_assoc]

theorem decode_board_enc (b : Board) (hb : b.length = 81) :
    decode_board (encode_board b) = .ok b := by
  obtain ⟨hflat, hlens, hcount⟩ := chunks9_spec 9 81 b (by omega) (by omega)
  unfold decode_board encode_board
  rw [hb]
  rw [split_on_join '/' ((chunks9 81 b).map encode_board_row)
    (by
      intro h
      have := congrArg List.length h
      simp [hcount] at this)
    (by
      intro r hr c hc
      obtain ⟨r0, hr0, rfl⟩ := List.mem_map.1 hr
      exact (enc_row_chars r0 0 (by simp [hlens r0 hr0]) c hc).2)]
  rw [board_rows_go_enc (chunks9 81 b) 0 (List.replicate 81 .Empty) hlens
    (by simp) (by rw [hcount])]
  rw [hflat, hcount]
  simp [List.drop_replicate]

/-! ### Hands round trip -/

theorem hand_is_empty_eq (h : Hand) (he : h.is_empty = true) :
    h = Hand.emptyHand := by
  obtain ⟨p, l, n, s, b, r, g⟩ := h
  simp [Hand.is_empty] at he
  simp [Hand.emptyHand, he]

theorem hand_add_zero (h : Hand) (pt : PieceType) : h.add pt 0 = h := by
  cases pt <;> simp [Hand.add]

theorem addTo_zero (st : HandsState) (side : Side) (pt : PieceType) :
    st.addTo side pt 0 = st := by
  cases side <;> simp [HandsState.addTo, hand_add_zero]

theorem addTo_cur (st : HandsState) (side : Side) (pt : PieceType)
    (n : Nat) : (st.addTo side pt n).cur = st.cur := by
  cases side <;> rfl

theorem hand_count_add_ne (h : Hand) (p₁ p₂ : PieceType) (k : Nat)
    (hne : p₁ ≠ p₂) : (h.add p₁ k).count p₂ = h.count p₂ := by
  cases p₁ <;> cases p₂ <;> simp [Hand.add, Hand.count] <;>
    exact absurd rfl hne

theorem count_addTo_ne (st : HandsState) (s₁ s₂ : Side) (p₁ p₂ : PieceType)
    (k : Nat) (hne : (s₁, p₁) ≠ (s₂, p₂)) :
    (st.addTo s₁ p₁ k).count s₂ p₂ = st.count s₂ p₂ := by
  cases s₁ <;> cases s₂ <;>
    simp only [HandsState.addTo, HandsState.count]
  · exact hand_count_add_ne _ _ _ _ (by rintro rfl; exact hne rfl)
  · exact hand_count_add_ne _ _ _ _ (by rintro rfl; exact hne rfl)

theorem is_hand_unpromoted : ∀ pt : PieceType, pt.is_hand = true →
    pt.unpromoted = true := by decide

theorem handsstate_cur_self (st : HandsState) (h : st.cur = 0) :
    ({ st with cur := 0 } : HandsState) = st := by
  obtain ⟨s, g, c⟩ := st
  simp only at h
  simp [h]

theorem hands_eats_group (side : Side) (pt : PieceType)
    (hh : pt.is_hand = true) (h : Hand) (hn : h.count pt ≤ 255)
    (st : HandsState) (h0 : st.cur = 0) (hc0 : st.count side pt = 0)
    (rest : List Char) :
    hands_eats st (hand_group side h pt ++ rest) =
      hands_eats (st.addTo side pt (h.count pt)) rest := by
  obtain ⟨henc, hlook, hbase, _, _, _, hdig10⟩ := piece_letter_bundle side pt
  have hunp := is_hand_unpromoted pt hh
  rw [hbase hunp] at hlook
  rw [if_pos hunp, List.nil_append] at henc
  by_cases hz : h.count pt = 0
  · simp [hand_group, hz, addTo_zero]
  · simp only [hand_group, if_neg hz]
    by_cases h2 : 2 ≤ h.count pt
    · rw [if_pos h2, henc, List.append_assoc,
        hands_eats_append (nat_to_chars (h.count pt)) _ st,
        hands_eats_digits (h.count pt) hn st h0]
      have hle : ({ st with cur := h.count pt } : HandsState).count side pt +
          (if ({ st with cur := h.count pt } : HandsState).cur = 0 then 1
            else ({ st with cur := h.count pt } : HandsState).cur) ≤ 255 := by
        show st.count side pt + (if h.count pt = 0 then 1 else h.count pt) ≤ 255
        rw [hc0, if_neg hz]
        omega
      have hlet := hands_eat_letter ({ st with cur := h.count pt })
        (pt_letter side pt) side pt hdig10 hlook hh hle
      simp only [List.singleton_append, hands_eats, hlet]
      have hst : (({ st with cur := h.count pt } : HandsState).addTo side pt
          (if ({ st with cur := h.count pt } : HandsState).cur = 0 then 1
            else ({ st with cur := h.count pt } : HandsState).cur))
          = { st.addTo side pt (h.count pt) with cur := h.count pt } := by
        show ({ st with cur := h.count pt } : HandsState).addTo side pt
            (if h.count pt = 0 then 1 else h.count pt) = _
        rw [if_neg hz]
        cases side <;> rfl
      rw [hst]
      have hcur0 : (st.addTo side pt (h.count pt)).cur = 0 := by
        rw [addTo_cur, h0]
      have hfin : hands_eats
          ({ st.addTo side pt (h.count pt) with cur := 0 } : HandsState)
          rest = hands_eats (st.addTo side pt (h.count pt)) rest := by
        rw [handsstate_cur_self _ hcur0]
      exact hfin
    · have h1 : h.count pt = 1 := by omega
      rw [if_neg h2, henc, List.nil_append, List.singleton_append]
      have hle : st.count side pt +
          (if st.cur = 0 then 1 else st.cur) ≤ 255 := by
        rw [hc0, if_pos h0]
        omega
      have hlet := hands_eat_letter st (pt_letter side pt) side pt hdig10
        hlook hh hle
      simp only [hands_eats, hlet]
      rw [if_pos h0, ← h1]
      have hcur0 : (st.addTo side pt (h.count pt)).cur = 0 := by
        rw [addTo_cur, h0]
      have hfin : hands_eats
          ({ st.addTo side pt (h.count pt) with cur := 0 } : HandsState)
          rest = hands_eats (st.addTo side pt (h.count pt)) rest := by
        rw [handsstate_cur_self _ hcur0]
      exact hfin

theorem hands_eats_groups (hs hg : Hand) :
    ∀ (pairs : List (Side × PieceType)) (st : HandsState)
      (rest : List Char),
      st.cur = 0 → pairs.Nodup →
      (∀ p ∈ pairs, p.2.is_hand = true) →
      (∀ p ∈ pairs,
        (match p.1 with | .Sente => hs | .Gote => hg).count p.2 ≤ 255) →
      (∀ p ∈ pairs, st.count p.1 p.2 = 0) →
      hands_eats st
        ((pairs.map (fun p => hand_group p.1
          (match p.1 with | .Sente => hs | .Gote => hg) p.2)).flatten
          ++ rest) =
        hands_eats
          (pairs.foldl (fun acc p => acc.addTo p.1 p.2
            ((match p.1 with | .Sente => hs | .Gote => hg).count p.2)) st)
          rest := by
  intro pairs
  induction pairs with
  | nil => intro st rest _ _ _ _ _; simp
  | cons p ps ih =>
      intro st rest h0 hnd hhand hle hcnt
      obtain ⟨s₀, pt₀⟩ := p
      simp only [List.map_cons, List.flatten_cons, List.append_assoc,
        List.foldl_cons]
      rw [hands_eats_group s₀ pt₀ (hhand (s₀, pt₀) (by simp)) _
        (hle (s₀, pt₀) (by simp)) st h0 (hcnt (s₀, pt₀) (by simp)) _]
      rw [ih (st.addTo s₀ pt₀ _) rest (by rw [addTo_cur]; exact h0)
        (List.nodup_cons.1 hnd).2
        (fun q hq => hhand q (by simp [hq]))
        (fun q hq => hle q (by simp [hq]))
        (fun q hq => by
          rw [count_addTo_ne st s₀ q.1 pt₀ q.2 _
            (by
              intro he
              have : (s₀, pt₀) ∈ ps := by
                rw [he]
                exact hq
              exact (List.nodup_cons.1 hnd).1 this)]
          exact hcnt q (by simp [hq]))]

theorem piece_chars_no_dash :
    ∀ (side : Side) (pt : PieceType), ∀ x ∈ encode_piece side pt,
      x ≠ '-' := by decide

theorem hands_chars_no_dash :
    ∀ (side : Side) (h : Hand) (pt : PieceType),
      ∀ c ∈ hand_group side h pt, c ≠ '-' := by
  intro side h pt c hc
  have hpiece := piece_chars_no_dash side pt
  simp only [hand_group] at hc
  by_cases hz : h.count pt = 0
  · simp [hz] at hc
  · rw [if_neg hz] at hc
    rcases List.mem_append.1 hc with h1 | h2
    · by_cases h2c : 2 ≤ h.count pt
      · rw [if_pos h2c] at h1
        have := mem_nat_to_chars _ c h1
        intro he
        subst he
        revert this
        decide
      · rw [if_neg h2c] at h1
        simp at h1
    · exact hpiece c h2

/-- The fourteen (side, piece type) combinations of `encode_hands`, in loop
order: sides outer, kinds inner. -/
theorem decode_hands_enc (hs hg : Hand) (h1 : hs.le255 = true)
    (h2 : hg.le255 = true) :
    decode_hands (encode_hands hs hg) = .ok (hs, hg) := by
  by_cases hemp : (hs.is_empty && hg.is_empty) = true
  · rw [Bool.and_eq_true] at hemp
    rw [hand_is_empty_eq hs hemp.1, hand_is_empty_eq hg hemp.2]
    decide
  · rw [Bool.not_eq_true] at hemp
    have hform : encode_hands hs hg =
        (([(Side.Sente, PieceType.Rook), (Side.Sente, PieceType.Bishop),
          (Side.Sente, PieceType.Gold), (Side.Sente, PieceType.Silver),
          (Side.Sente, PieceType.Knight), (Side.Sente, PieceType.Lance),
          (Side.Sente, PieceType.Pawn), (Side.Gote, PieceType.Rook),
          (Side.Gote, PieceType.Bishop), (Side.Gote, PieceType.Gold),
          (Side.Gote, PieceType.Silver), (Side.Gote, PieceType.Knight),
          (Side.Gote, PieceType.Lance), (Side.Gote, PieceType.Pawn)].map
            (fun p => hand_group p.1
              (match p.1 with | .Sente => hs | .Gote => hg) p.2)).flatten) := by
      simp [encode_hands, hemp, ENC_PTS, List.append_assoc]
    simp only [Hand.le255, Bool.and_eq_true, decide_eq_true_eq] at h1 h2
    have hnodash : ∀ c ∈ encode_hands hs hg, c ≠ '-' := by
      rw [hform]
      intro c hc
      obtain ⟨l, hl, hcl⟩ := List.mem_flatten.1 hc
      obtain ⟨q, _, rfl⟩ := List.mem_map.1 hl
      exact hands_chars_no_dash q.1 _ q.2 c hcl
    have hne : encode_hands hs hg ≠ ("-".toList) := by
      intro he
      have : '-' ∈ encode_hands hs hg := by
        rw [he]
        simp
      exact hnodash '-' this rfl
    rw [decode_hands, if_neg hne, hform,
      ← List.append_nil ((_ : List (List Char)).flatten),
      hands_eats_groups hs hg _ HandsState.init [] rfl (by decide)
        (by decide)
        (by
          intro p hp
          fin_cases hp <;> simp [Hand.count] <;> omega)
        (by intro p hp; fin_cases hp <;> rfl)]
    simp only [List.foldl_cons, List.foldl_nil, HandsState.addTo,
      HandsState.init, Hand.add, Hand.count, Hand.emptyHand, hands_eats]
    simp

/-! ### Ply round trip -/

theorem digit_not_sign (c : Char) (h0 : '0' ≤ c) :
    (c == '-') = false ∧ (c == '+') = false := by
  constructor <;> rw [beq_eq_false_iff_ne] <;> rintro rfl <;>
    revert h0 <;> decide

theorem all_digits_nat_to_chars (n : Nat) :
    all_digits (nat_to_chars n) = true := by
  rw [all_digits, List.all_eq_true]
  intro c hc
  exact decide_eq_true (mem_nat_to_chars n c hc)

theorem decode_ply_enc (i : Int) (hlo : -(2 ^ 31) ≤ i) (hhi : i < 2 ^ 31) :
    decode_ply (encode_ply i) = .ok i := by
  by_cases hneg : i < 0
  · rw [encode_ply, int_to_chars, if_pos hneg]
    cases hcs : nat_to_chars i.natAbs with
    | nil => exact absurd hcs (nat_to_chars_ne_nil i.natAbs)
    | cons d ds' =>
        have hd : (('-' : Char) == '-') = true := by decide
        simp only [decode_ply, hd, Bool.true_or, if_true,
          List.isEmpty_cons, Bool.false_eq_true, if_false]
        rw [← hcs, all_digits_nat_to_chars, digits_val_nat_to_chars]
        rw [if_neg (by simp), if_neg (by omega)]
        congr 1
        omega
  · rw [encode_ply, int_to_chars, if_neg hneg]
    cases hcs : nat_to_chars i.toNat with
    | nil => exact absurd hcs (nat_to_chars_ne_nil i.toNat)
    | cons d ds' =>
        have hdmem := mem_nat_to_chars i.toNat d (by rw [hcs]; simp)
        obtain ⟨hd1, hd2⟩ := digit_not_sign d hdmem.1
        simp only [decode_ply, hd1, hd2, Bool.or_self, Bool.false_eq_true,
          if_false, List.isEmpty_cons]
        rw [← hcs, all_digits_nat_to_chars, digits_val_nat_to_chars]
        rw [if_neg (by simp), if_neg (by omega)]
        congr 1
        omega

/-! ### Move round trip -/

theorem file_char_facts : ∀ x, x < 9 →
    ('1' ≤ Char.ofNat (49 + x) ∧ Char.ofNat (49 + x) ≤ '9') ∧
      (Char.ofNat (49 + x)).toNat - 49 = x ∧
      (Char.ofNat (49 + x) == '*') = false ∧
      is_ws (Char.ofNat (49 + x)) = false := by decide

theorem rank_char_facts : ∀ y, y < 9 →
    ('a' ≤ Char.ofNat (97 + y) ∧ Char.ofNat (97 + y) ≤ 'i') ∧
      (Char.ofNat (97 + y)).toNat - 97 = y ∧
      (Char.ofNat (97 + y) == '*') = false ∧
      is_ws (Char.ofNat (97 + y)) = false := by decide

theorem pt_letter_drop_facts : ∀ pt : PieceType, pt.unpromoted = true →
    encode_pt pt = [pt_letter Side.Sente pt] ∧
      char_to_pt (pt_letter Side.Sente pt) = some pt ∧
      (pt_letter Side.Sente pt == '*') = false ∧
      is_ws (pt_letter Side.Sente pt) = false := by decide

theorem chars_to_sq_enc (sq : Square) (h : sq.idx < 81) :
    chars_to_sq (Char.ofNat (49 + sq.x)) (Char.ofNat (97 + sq.y)) =
      .ok sq := by
  obtain ⟨idx⟩ := sq
  have h2 : idx < 81 := h
  have hx : Square.x ⟨idx⟩ < 9 := Nat.mod_lt _ (by omega)
  have hy : Square.y ⟨idx⟩ < 9 := by
    show idx / 9 < 9
    omega
  obtain ⟨hxr, hxv, _, _⟩ := file_char_facts _ hx
  obtain ⟨hyr, hyv, _, _⟩ := rank_char_facts _ hy
  rw [chars_to_sq, if_neg (not_not_intro hxr), if_neg (not_not_intro hyr),
    hxv, hyv]
  congr 1
  simp only [Square.new, Square.x, Square.y, Square.mk.injEq]
  omega

theorem decode_move_enc (m : Move) (h : Move.valid m = true) :
    decode_move (encode_move m) = .ok m := by
  cases m with
  | nondrop src dst promo =>
      simp only [Move.valid, Square.valid, Bool.and_eq_true,
        decide_eq_true_eq] at h
      obtain ⟨hs, hd⟩ := h
      have hsx := (chars_to_sq_enc src hs)
      have hdx := (chars_to_sq_enc dst hd)
      have hy1 := (rank_char_facts src.y (by show src.idx / 9 < 9; omega)).2.2.1
      cases promo with
      | false =>
          simp only [encode_move, sq_chars, if_false, Bool.false_eq_true,
            List.append_nil, List.cons_append, List.nil_append]
          simp only [decode_move, List.length_cons, List.length_nil]
          norm_num
          simp only [List.getD_cons_succ, List.getD_cons_zero, hy1,
            Bool.false_eq_true, if_false, hsx, hdx]
          rw [if_neg (beq_eq_false_iff_ne.1 hy1)]
          rfl
      | true =>
          simp only [encode_move, sq_chars, if_true, List.cons_append,
            List.nil_append]
          simp only [decode_move, List.length_cons, List.length_nil]
          norm_num
          simp only [List.getD_cons_succ, List.getD_cons_zero, hy1,
            Bool.false_eq_true, if_false, hsx, hdx]
          rw [if_neg (beq_eq_false_iff_ne.1 hy1)]
  | drop pt dst =>
      simp only [Move.valid, Square.valid, Bool.and_eq_true,
        decide_eq_true_eq] at h
      obtain ⟨hu, hd⟩ := h
      obtain ⟨henc, hlook, hstar, _⟩ := pt_letter_drop_facts pt hu
      have hdx := (chars_to_sq_enc dst hd)
      simp only [encode_move, henc, sq_chars, List.cons_append,
        List.nil_append]
      simp only [decode_move, List.length_cons, List.length_nil]
      norm_num
      simp only [List.getD_cons_succ, List.getD_cons_zero, hlook, hdx]

theorem moves_map_enc (mvs : List Move)
    (h : ∀ m ∈ mvs, Move.valid m = true) :
    moves_map (mvs.map encode_move) = .ok mvs := by
  induction mvs with
  | nil => rfl
  | cons m ms ih =>
      simp only [List.map_cons, moves_map,
        decode_move_enc m (h m (by simp)),
        ih (fun x hx => h x (by simp [hx]))]

theorem tokens_to_moves_enc (mvs : List Move)
    (h : ∀ m ∈ mvs, Move.valid m = true) :
    tokens_to_moves (("moves".toList) :: mvs.map encode_move) = .ok mvs := by
  simp only [tokens_to_moves, if_pos rfl]
  exact moves_map_enc mvs h

/-! ### Tokenizer -/

theorem split_ws_aux_token :
    ∀ (t : List Char), (∀ c ∈ t, is_ws c = false) →
      ∀ (cs cur : List Char),
        split_ws_aux (t ++ cs) cur = split_ws_aux cs (t.reverse ++ cur) := by
  intro t
  induction t with
  | nil => intro _ cs cur; simp
  | cons c t' ih =>
      intro hws cs cur
      have hc : is_ws c = false := hws c (by simp)
      simp only [List.cons_append, List.append_eq, split_ws_aux, hc,
        Bool.false_eq_true, if_false]
      rw [ih (fun x hx => hws x (by simp [hx])) cs (c :: cur)]
      simp [List.append_assoc]

theorem split_ws_aux_space (cs cur : List Char) :
    split_ws_aux (' ' :: cs) cur =
      if cur.isEmpty then split_ws_aux cs []
      else cur.reverse :: split_ws_aux cs [] := by
  simp [split_ws_aux, is_ws]

theorem reverse_isEmpty_false (t : List Char) (h : t ≠ []) :
    t.reverse.isEmpty = false := by
  cases t with
  | nil => exact absurd rfl h
  | cons a t' => simp

theorem split_ws_join :
    ∀ (toks : List (List Char)),
      (∀ t ∈ toks, t ≠ [] ∧ ∀ c ∈ t, is_ws c = false) →
      split_ws (join_sep [' '] toks) = toks := by
  intro toks
  induction toks with
  | nil => intro _; rfl
  | cons t ts ih =>
      intro hall
      obtain ⟨hne, hws⟩ := hall t (by simp)
      cases ts with
      | nil =>
          show split_ws_aux (join_sep [' '] [t]) [] = [t]
          simp only [join_sep]
          have h1 := split_ws_aux_token t hws [] []
          rw [List.append_nil] at h1
          rw [h1]
          simp [split_ws_aux, reverse_isEmpty_false t hne]
      | cons t2 ts' =>
          show split_ws_aux (join_sep [' '] (t :: t2 :: ts')) [] = _
          simp only [join_sep, List.append_assoc, List.singleton_append]
          rw [split_ws_aux_token t hws _ [], split_ws_aux_space]
          rw [List.append_nil, if_neg (by
            rw [reverse_isEmpty_false t hne]
            simp)]
          rw [List.reverse_reverse]
          congr 1
          exact ih (fun x hx => hall x (by simp [hx]))

theorem join_sep_append (sep : List Char) :
    ∀ (A B : List (List Char)), A ≠ [] → B ≠ [] →
      join_sep sep A ++ sep ++ join_sep sep B = join_sep sep (A ++ B) := by
  intro A
  induction A with
  | nil => intro B h; exact absurd rfl h
  | cons a A' ih =>
      intro B _ hB
      cases A' with
      | nil =>
          cases B with
          | nil => exact absurd rfl hB
          | cons b B' => simp [join_sep, List.append_assoc]
      | cons a2 A'' =>
          simp only [join_sep, List.append_assoc, List.cons_append,
            List.append_eq]
          rw [← List.cons_append, ← ih B (by simp) hB]
          simp [List.append_assoc]

theorem mem_join_sep (sep : List Char) :
    ∀ (rows : List (List Char)) (c : Char), c ∈ join_sep sep rows →
      c ∈ sep ∨ ∃ r ∈ rows, c ∈ r := by
  intro rows
  induction rows with
  | nil => intro c hc; simp [join_sep] at hc
  | cons r rs ih =>
      intro c hc
      cases rs with
      | nil => exact Or.inr ⟨r, by simp, hc⟩
      | cons r2 rs' =>
          simp only [join_sep, List.append_assoc, List.mem_append] at hc
          rcases hc with h | h | h
          · exact Or.inr ⟨r, by simp, h⟩
          · exact Or.inl h
          · rcases ih c h with h2 | ⟨x, hx, hcx⟩
            · exact Or.inl h2
            · exact Or.inr ⟨x, by simp [hx], hcx⟩

/-! ### Token character classes -/

theorem not_ws_of_ge_zero (c : Char) (h0 : '0' ≤ c) : is_ws c = false := by
  rw [is_ws]
  have h1 : (c == ' ') = false := by
    rw [beq_eq_false_iff_ne]; rintro rfl; revert h0; decide
  have h2 : (c == '\t') = false := by
    rw [beq_eq_false_iff_ne]; rintro rfl; revert h0; decide
  have h3 : (c == '\n') = false := by
    rw [beq_eq_false_iff_ne]; rintro rfl; revert h0; decide
  have h4 : (c == '\x0c') = false := by
    rw [beq_eq_false_iff_ne]; rintro rfl; revert h0; decide
  have h5 : (c == '\r') = false := by
    rw [beq_eq_false_iff_ne]; rintro rfl; revert h0; decide
  rw [h1, h2, h3, h4, h5]
  rfl

theorem board_token_ok (b : Board) (hb : b.length = 81) :
    encode_board b ≠ [] ∧ ∀ c ∈ encode_board b, is_ws c = false := by
  unfold encode_board
  rw [hb]
  obtain ⟨_, hlens, hcount⟩ := chunks9_spec 9 81 b (by omega) (by omega)
  have hrows : ∀ r ∈ (chunks9 81 b).map encode_board_row,
      ∀ c ∈ r, is_ws c = false := by
    intro r hr c hc
    obtain ⟨r0, hr0, rfl⟩ := List.mem_map.1 hr
    exact (enc_row_chars r0 0 (by simp [hlens r0 hr0]) c hc).1
  have hcount2 : ((chunks9 81 b).map encode_board_row).length = 9 := by
    simp [hcount]
  constructor
  · intro hnil
    cases hrs : (chunks9 81 b).map encode_board_row with
    | nil => rw [hrs] at hcount2; simp at hcount2
    | cons r1 rest =>
        cases rest with
        | nil =>
            rw [hrs] at hcount2
            simp at hcount2
        | cons r2 rest' =>
            rw [hrs] at hnil
            simp only [join_sep, List.append_assoc] at hnil
            have := congrArg List.length hnil
            simp [List.length_append] at this
  · intro c hc
    rcases mem_join_sep ['/'] _ c hc with h | ⟨r, hr, hcr⟩
    · simp only [List.mem_singleton] at h
      subst h
      rfl
    · exact hrows r hr c hcr

theorem encode_piece_ne_nil : ∀ (side : Side) (pt : PieceType),
    encode_piece side pt ≠ [] := by decide

theorem hand_group_eq_nil (side : Side) (h : Hand) (pt : PieceType)
    (hgn : hand_group side h pt = []) : h.count pt = 0 := by
  by_contra hz
  simp only [hand_group, if_neg hz] at hgn
  exact encode_piece_ne_nil side pt (List.append_eq_nil.1 hgn).2

theorem piece_chars_not_ws :
    ∀ (side : Side) (pt : PieceType), ∀ c ∈ encode_piece side pt,
      is_ws c = false := by decide

theorem hand_group_chars (side : Side) (h : Hand) (pt : PieceType) :
    ∀ c ∈ hand_group side h pt, is_ws c = false := by
  intro c hc
  simp only [hand_group] at hc
  by_cases hz : h.count pt = 0
  · simp [hz] at hc
  · rw [if_neg hz] at hc
    rcases List.mem_append.1 hc with h1 | h2
    · by_cases h2c : 2 ≤ h.count pt
      · rw [if_pos h2c] at h1
        exact not_ws_of_ge_zero c (mem_nat_to_chars _ c h1).1
      · rw [if_neg h2c] at h1
        simp at h1
    · exact piece_chars_not_ws side pt c h2

theorem hands_token_ok (hs hg : Hand) :
    encode_hands hs hg ≠ [] ∧
      ∀ c ∈ encode_hands hs hg, is_ws c = false := by
  by_cases hemp : (hs.is_empty && hg.is_empty) = true
  · constructor
    · simp [encode_hands, hemp]
    · intro c hc
      simp only [encode_hands, hemp, if_true, List.mem_singleton] at hc
      subst hc
      rfl
  · rw [Bool.not_eq_true] at hemp
    constructor
    · simp only [encode_hands, hemp, Bool.false_eq_true, if_false]
      intro hnil
      rw [List.flatten_eq_nil_iff] at hnil
      have hgrp : ∀ (side : Side) (h : Hand),
          (side, h) ∈ [(Side.Sente, hs), (Side.Gote, hg)] →
          ∀ pt ∈ ENC_PTS, hand_group side h pt = [] := by
        intro side h hsh pt hpt
        have hin := hnil ((ENC_PTS.map (hand_group side h)).flatten)
          (by
            apply List.mem_map.2
            exact ⟨(side, h), hsh, rfl⟩)
        rw [List.flatten_eq_nil_iff] at hin
        exact hin _ (List.mem_map_of_mem _ hpt)
      have hz1 : ∀ pt ∈ ENC_PTS, hs.count pt = 0 := fun pt hpt =>
        hand_group_eq_nil _ _ _ (hgrp Side.Sente hs (by simp) pt hpt)
      have hz2 : ∀ pt ∈ ENC_PTS, hg.count pt = 0 := fun pt hpt =>
        hand_group_eq_nil _ _ _ (hgrp Side.Gote hg (by simp) pt hpt)
      have he1 : hs.is_empty = true := by
        have hp := hz1 .Pawn (by simp [ENC_PTS])
        have hl := hz1 .Lance (by simp [ENC_PTS])
        have hn := hz1 .Knight (by simp [ENC_PTS])
        have hsv := hz1 .Silver (by simp [ENC_PTS])
        have hb := hz1 .Bishop (by simp [ENC_PTS])
        have hr := hz1 .Rook (by simp [ENC_PTS])
        have hgo := hz1 .Gold (by simp [ENC_PTS])
        simp [Hand.is_empty, show hs.pawn = 0 from hp,
          show hs.lance = 0 from hl, show hs.knight = 0 from hn,
          show hs.silver = 0 from hsv, show hs.bishop = 0 from hb,
          show hs.rook = 0 from hr, show hs.gold = 0 from hgo]
      have he2 : hg.is_empty = true := by
        have hp := hz2 .Pawn (by simp [ENC_PTS])
        have hl := hz2 .Lance (by simp [ENC_PTS])
        have hn := hz2 .Knight (by simp [ENC_PTS])
        have hsv := hz2 .Silver (by simp [ENC_PTS])
        have hb := hz2 .Bishop (by simp [ENC_PTS])
        have hr := hz2 .Rook (by simp [ENC_PTS])
        have hgo := hz2 .Gold (by simp [ENC_PTS])
        simp [Hand.is_empty, show hg.pawn = 0 from hp,
          show hg.lance = 0 from hl, show hg.knight = 0 from hn,
          show hg.silver = 0 from hsv, show hg.bishop = 0 from hb,
          show hg.rook = 0 from hr, show hg.gold = 0 from hgo]
      rw [he1, he2] at hemp
      simp at hemp
    · intro c hc
      simp only [encode_hands, hemp, Bool.false_eq_true, if_false] at hc
      obtain ⟨l, hl, hcl⟩ := List.mem_flatten.1 hc
      obtain ⟨q, _, rfl⟩ := List.mem_map.1 hl
      obtain ⟨g, hgm, hcg⟩ := List.mem_flatten.1 hcl
      obtain ⟨pt, _, rfl⟩ := List.mem_map.1 hgm
      exact hand_group_chars q.1 q.2 pt c hcg

theorem ply_token_ok (i : Int) :
    encode_ply i ≠ [] ∧ ∀ c ∈ encode_ply i, is_ws c = false := by
  rw [encode_ply, int_to_chars]
  by_cases hneg : i < 0
  · rw [if_pos hneg]
    refine ⟨by simp, ?_⟩
    intro c hc
    rcases List.mem_cons.1 hc with rfl | h
    · rfl
    · exact not_ws_of_ge_zero c (mem_nat_to_chars _ c h).1
  · rw [if_neg hneg]
    exact ⟨nat_to_chars_ne_nil _,
      fun c hc => not_ws_of_ge_zero c (mem_nat_to_chars _ c hc).1⟩

theorem move_token_ok (m : Move) (h : Move.valid m = true) :
    encode_move m ≠ [] ∧ ∀ c ∈ encode_move m, is_ws c = false := by
  cases m with
  | nondrop src dst promo =>
      simp only [Move.valid, Square.valid, Bool.and_eq_true,
        decide_eq_true_eq] at h
      have hxs := (file_char_facts src.x (Nat.mod_lt _ (by omega))).2.2.2
      have hys := (rank_char_facts src.y
        (by show src.idx / 9 < 9; omega)).2.2.2
      have hxd := (file_char_facts dst.x (Nat.mod_lt _ (by omega))).2.2.2
      have hyd := (rank_char_facts dst.y
        (by show dst.idx / 9 < 9; omega)).2.2.2
      refine ⟨by simp [encode_move, sq_chars], ?_⟩
      intro c hc
      simp only [encode_move, sq_chars, List.mem_append, List.mem_cons,
        List.not_mem_nil, or_false] at hc
      rcases hc with ((rfl | rfl) | (rfl | rfl)) | hc
      · exact hxs
      · exact hys
      · exact hxd
      · exact hyd
      · cases promo with
        | true => simp at hc; subst hc; rfl
        | false => simp at hc
  | drop pt dst =>
      simp only [Move.valid, Square.valid, Bool.and_eq_true,
        decide_eq_true_eq] at h
      obtain ⟨henc, _, _, hws⟩ := pt_letter_drop_facts pt h.1
      have hxd := (file_char_facts dst.x (Nat.mod_lt _ (by omega))).2.2.2
      have hyd := (rank_char_facts dst.y
        (by show dst.idx / 9 < 9; omega)).2.2.2
      refine ⟨by simp [encode_move, henc, sq_chars], ?_⟩
      intro c hc
      simp only [encode_move, henc, sq_chars, List.mem_append,
        List.mem_cons, List.not_mem_nil, or_false,
        List.mem_singleton] at hc
      rcases hc with (rfl | rfl) | (rfl | rfl)
      · exact hws
      · rfl
      · exact hxd
      · exact hyd

/-! ### Full decode-encode assembly -/

theorem decode_side_enc : ∀ s : Side,
    decode_side (encode_side s) = .ok s := by decide

theorem tokens_to_pos_enc (p : Position) (hp : p.valid = true)
    (rest : List (List Char)) :
    tokens_to_pos (("sfen".toList) :: encode_board p.board ::
      encode_side p.side :: encode_hands p.hand_sente p.hand_gote ::
      encode_ply p.ply :: rest) = .ok (p, rest) := by
  simp only [Position.valid, Bool.and_eq_true, decide_eq_true_eq] at hp
  obtain ⟨⟨⟨⟨hb, h1⟩, h2⟩, hlo⟩, hhi⟩ := hp
  simp only [tokens_to_pos]
  rw [if_neg (by decide), if_pos trivial]
  simp only [tokens_to_pos_sfen, decode_board_enc p.board hb,
    decode_side_enc p.side, decode_hands_enc _ _ h1 h2,
    decode_ply_enc p.ply hlo hhi]

theorem decode_encode_ok (p : Position) (mvs : List Move)
    (hp : p.valid = true) (hm : mvs.all Move.valid = true) :
    decode (encode p mvs) = .ok (p, mvs) := by
  have hb : p.board.length = 81 := by
    simp only [Position.valid, Bool.and_eq_true, decide_eq_true_eq] at hp
    exact hp.1.1.1.1
  have hmv : ∀ m ∈ mvs, Move.valid m = true := by
    rw [List.all_eq_true] at hm
    exact hm
  have htoks5 : ∀ t ∈ [("sfen".toList), encode_board p.board,
      encode_side p.side, encode_hands p.hand_sente p.hand_gote,
      encode_ply p.ply], t ≠ [] ∧ ∀ c ∈ t, is_ws c = false := by
    intro t ht
    simp only [List.mem_cons, List.not_mem_nil, or_false] at ht
    rcases ht with rfl | rfl | rfl | rfl | rfl
    · exact ⟨by decide, by decide⟩
    · exact board_token_ok p.board hb
    · cases p.side <;> exact ⟨by decide, by decide⟩
    · exact hands_token_ok _ _
    · exact ply_token_ok _
  cases mvs with
  | nil =>
      rw [encode, if_pos rfl, encode_pos]
      simp only [decode, split_ws_join _ htoks5, tokens_to_pos_enc p hp [],
        tokens_to_moves]
  | cons m ms =>
      have hmv2 : ∀ x ∈ m :: ms, Move.valid x = true := hmv
      rw [encode, if_neg (by simp), encode_pos, encode_moves,
        join_sep_append [' '] _ _ (by simp) (by simp)]
      have htoksAll : ∀ t ∈ (("sfen".toList) :: encode_board p.board ::
          encode_side p.side :: encode_hands p.hand_sente p.hand_gote ::
          encode_ply p.ply :: ("moves".toList) ::
            (m :: ms).map encode_move),
          t ≠ [] ∧ ∀ c ∈ t, is_ws c = false := by
        intro t ht
        simp only [List.mem_cons] at ht
        rcases ht with rfl | rfl | rfl | rfl | rfl | rfl | h2
        · exact htoks5 _ (by simp)
        · exact htoks5 _ (by simp)
        · exact htoks5 _ (by simp)
        · exact htoks5 _ (by simp)
        · exact htoks5 _ (by simp)
        · exact ⟨by decide, by decide⟩
        · obtain ⟨mv, hm0, rfl⟩ := List.mem_map.1 h2
          exact move_token_ok mv (hmv2 mv hm0)
      simp only [decode, split_ws_join _ htoksAll, List.cons_append,
        List.nil_append, tokens_to_pos_enc p hp _,
        tokens_to_moves_enc (m :: ms) hmv2]

/-- C10: on every position and move list the Rust types can construct —
81-cell board, hand counts within `u8`, an `i32` ply, squares built by
`Square::new`, and every dropped piece kind unpromoted — `decode` inverts
`encode` exactly: `decode (encode p mvs) = ok (p, mvs)`. -/
theorem C10_decode_encode (p : Position) (mvs : List Move)
    (hp : p.valid = true) (hm : mvs.all Move.valid = true) :
    decode (encode p mvs) = .ok (p, mvs) :=
  decode_encode_ok p mvs hp hm

/-- C10, witness: a Gote-to-move position with pieces on the board, hands
in use and a negative ply, followed by a promotion move, a drop of a King
and a plain move. -/
theorem C10_decode_encode_witness :
    (Position.valid ⟨.Gote,
        (List.replicate 40 BoardCell.Empty ++
          (BoardCell.Piece .Sente .ProPawn ::
            List.replicate 40 BoardCell.Empty)),
        ⟨18, 0, 0, 0, 0, 2, 1⟩, ⟨0, 0, 0, 0, 1, 0, 0⟩, -5⟩ = true ∧
      ([Move.nondrop ⟨0⟩ ⟨10⟩ true, Move.drop .King ⟨80⟩,
        Move.nondrop ⟨33⟩ ⟨42⟩ false].all Move.valid) = true) ∧
    decode (encode ⟨.Gote,
        (List.replicate 40 BoardCell.Empty ++
          (BoardCell.Piece .Sente .ProPawn ::
            List.replicate 40 BoardCell.Empty)),
        ⟨18, 0, 0, 0, 0, 2, 1⟩, ⟨0, 0, 0, 0, 1, 0, 0⟩, -5⟩
      [Move.nondrop ⟨0⟩ ⟨10⟩ true, Move.drop .King ⟨80⟩,
        Move.nondrop ⟨33⟩ ⟨42⟩ false]) =
      .ok (⟨.Gote,
        (List.replicate 40 BoardCell.Empty ++
          (BoardCell.Piece .Sente .ProPawn ::
            List.replicate 40 BoardCell.Empty)),
        ⟨18, 0, 0, 0, 0, 2, 1⟩, ⟨0, 0, 0, 0, 1, 0, 0⟩, -5⟩,
        [Move.nondrop ⟨0⟩ ⟨10⟩ true, Move.drop .King ⟨80⟩,
          Move.nondrop ⟨33⟩ ⟨42⟩ false]) :=
  ⟨⟨by decide, by decide⟩,
    C10_decode_encode _ _ (by decide) (by decide)⟩

/-- C1, counterexample: the claim quantifies over every constructible
`(Position, moves)` pair, but `Move::drop` accepts a promoted piece kind;
its encoding (here the token `+P*1a`) is a text produced by `encode` that
`decode` rejects, so the claim as stated is false. -/
theorem C1_counterexample :
    (decode (encode ⟨.Sente, List.replicate 81 .Empty, Hand.emptyHand,
      Hand.emptyHand, 1⟩ [Move.drop .ProPawn ⟨0⟩])).isErr = true := by
  decide

/-- C1, amended: for every text `t` produced by `encode` from a position
and move list the Rust types can construct in which every dropped piece
kind is unpromoted, `decode t` succeeds and re-encoding the decoded pair
reproduces `t` byte for byte. -/
theorem C1_roundtrip_amended (p : Position) (mvs : List Move)
    (hp : p.valid = true) (hm : mvs.all Move.valid = true) :
    ∃ r : Position × List Move,
      decode (encode p mvs) = .ok r ∧ encode r.1 r.2 = encode p mvs :=
  ⟨(p, mvs), decode_encode_ok p mvs hp hm, rfl⟩

/-- C1, amended, witness. -/
theorem C1_roundtrip_amended_witness :
    (Position.valid ⟨.Sente, List.replicate 81 BoardCell.Empty,
        ⟨0, 1, 0, 0, 0, 0, 0⟩, Hand.emptyHand, 1⟩ = true ∧
      ([Move.drop .Lance ⟨4⟩]).all Move.valid = true) ∧
    ∃ r : Position × List Move,
      decode (encode ⟨.Sente, List.replicate 81 BoardCell.Empty,
        ⟨0, 1, 0, 0, 0, 0, 0⟩, Hand.emptyHand, 1⟩ [Move.drop .Lance ⟨4⟩]) =
          .ok r ∧
        encode r.1 r.2 = encode ⟨.Sente, List.replicate 81 BoardCell.Empty,
          ⟨0, 1, 0, 0, 0, 0, 0⟩, Hand.emptyHand, 1⟩
          [Move.drop .Lance ⟨4⟩] :=
  ⟨⟨by decide, by decide⟩,
    C1_roundtrip_amended _ _ (by decide) (by decide)⟩

end Sfen
